import Mathlib

/-!
Verification of the etymology graph engine: a shallow embedding of the
storage layer (`MemStorage.getWordGraph`, hub pruning, `getRandomWord`),
the lambda variants of `getWordGraph`, the stats precomputer
(`computeGraphSize`, cumulative-weight table construction) and the
weighted sampler's binary search, together with proofs of the documented
properties (BFS depth minimality, hub-pruning invariants, edge dedup,
sampling correctness and safety).

JavaScript objects keyed by strings are embedded as association lists
(`List (String × _)` with first-match lookup), `Set`s as duplicate-free
lists in insertion order, and `Map`s as association lists with
replace-on-set. Loops whose iteration count is bounded by the data are
embedded with an explicit fuel that is proved sufficient.
-/

/-- JS whitespace test used by `trim` (ASCII whitespace). -/
def isWSp (c : Char) : Bool := c == ' ' || c == '\t' || c == '\r' || c == '\n'

/-- Trim leading and trailing whitespace from a character list. -/
def trimChars (l : List Char) : List Char :=
  ((l.dropWhile isWSp).reverse.dropWhile isWSp).reverse

/-- `word.toLowerCase().trim()` (normalization applied everywhere),
written over the character list so that it evaluates by kernel
reduction; extensionally this is `(w.toLower).trim`. -/
def normalizeWord (w : String) : String := String.mk (trimChars (w.data.map Char.toLower))

/-- A word entry of the etymology dataset: `{ definition, relatedWords }`. -/
structure WordEntry where
  definition : String
  relatedWords : List String
deriving DecidableEq

/-- The in-memory dataset `EtymologyData` (a JS object word → entry),
embedded as an association list with first-match lookup. -/
abbrev EtymologyData := List (String × WordEntry)

/-- First-match association-list lookup, embedding `obj[key]` /
`map.get(key)` returning `undefined` as `none`. -/
def lookupStr {α : Type} : List (String × α) → String → Option α
  | [], _ => none
  | (k, v) :: rest, w => if k = w then some v else lookupStr rest w

/-- The (deduplicated) key set of the dataset, i.e. `Object.keys`. -/
def keysDedup (data : EtymologyData) : List String := (data.map Prod.fst).dedup

/-- A graph node `{id, word, definition, depth, relatedWords}`. -/
structure GraphNode where
  id : String
  word : String
  definition : String
  depth : Nat
  relatedWords : List String
deriving DecidableEq

/-- A graph edge `{from, to}` (fields renamed `efrom`/`eto` because `from`
is a Lean keyword). -/
structure GraphEdge where
  efrom : String
  eto : String
deriving DecidableEq

/-- A BFS queue item `{word, depth}`. -/
structure QItem where
  word : String
  depth : Nat
deriving DecidableEq

/-- The words adjacent to `u`: the normalizations of `u`'s related words
that are keys of the index. This is the hop relation of the BFS. -/
def adjList (data : EtymologyData) (u : String) : List String :=
  match lookupStr data u with
  | none => []
  | some e => (e.relatedWords.map normalizeWord).filter (fun r => (lookupStr data r).isSome)

/-- All words adjacent to some word of `l`. -/
def adjOfList (data : EtymologyData) : List String → List String
  | [] => []
  | u :: rest => adjList data u ++ adjOfList data rest

/-- The set of words reachable from `root` in at most `k` hops through
related words whose normalization is a key of the index. -/
def reachList (data : EtymologyData) (root : String) : Nat → List String
  | 0 => [root]
  | k + 1 =>
      (reachList data root k ++ adjOfList data (reachList data root k)).dedup

/-- `w` is at minimum hop distance exactly `k` from the root. -/
def minDepthIs (data : EtymologyData) (root w : String) (k : Nat) : Prop :=
  w ∈ reachList data root k ∧ (k = 0 ∨ w ∉ reachList data root (k - 1))

/-! ## Variant A: `MemStorage.getWordGraph` (visited marked at enqueue time) -/

/-- State of the inner `for (const relatedWord of entry.relatedWords)` loop
of `MemStorage.getWordGraph`: edge list, visited set, `nodeDepthMap`, and
the items appended to the BFS queue. -/
structure FStateA where
  edges : List GraphEdge
  visited : List String
  dmap : List (String × Nat)
  pend : List QItem
deriving DecidableEq

/-- The `edges.some(...)` duplicate test for the unordered pair `{a, b}`. -/
def edgeMem (es : List GraphEdge) (a b : String) : Bool :=
  es.any (fun e => (e.efrom == a && e.eto == b) || (e.efrom == b && e.eto == a))

/-- `Map.set` (replace the binding if the key is present, else append). -/
def dmSet (dm : List (String × Nat)) (k : String) (v : Nat) : List (String × Nat) :=
  match dm with
  | [] => [(k, v)]
  | (k2, v2) :: rest => if k2 = k then (k, v) :: rest else (k2, v2) :: dmSet rest k v

/-- The inner related-words loop of `MemStorage.getWordGraph`: for each
related word present in the index, add the edge unless the unordered pair
exists, and if unvisited and within the depth limit mark visited, record
the depth and enqueue. -/
def procRelA (data : EtymologyData) (maxD : Nat) (cw : String) (cd : Nat) :
    List String → FStateA → FStateA
  | [], st => st
  | rw :: rest, st =>
      let nr := normalizeWord rw
      if (lookupStr data nr).isSome then
        let edges1 := if edgeMem st.edges cw nr then st.edges else st.edges ++ [⟨cw, nr⟩]
        if nr ∈ st.visited then
          procRelA data maxD cw cd rest { st with edges := edges1 }
        else if cd + 1 ≤ maxD then
          procRelA data maxD cw cd rest
            ⟨edges1, st.visited ++ [nr], dmSet st.dmap nr (cd + 1), st.pend ++ [⟨nr, cd + 1⟩]⟩
        else
          procRelA data maxD cw cd rest { st with edges := edges1 }
      else
        procRelA data maxD cw cd rest st

/-- Full state of the `MemStorage.getWordGraph` BFS loop. -/
structure AState where
  queue : List QItem
  visited : List String
  nodes : List GraphNode
  edges : List GraphEdge
  dmap : List (String × Nat)
deriving DecidableEq

/-- One dequeue of the `MemStorage.getWordGraph` BFS: skip when the depth
exceeds the bound or the entry is missing, else emit the node and process
its related words. -/
def stepA (data : EtymologyData) (maxD : Nat) (w : String) (dw : Nat)
    (rest : List QItem) (s : AState) : AState :=
  if maxD < dw then { s with queue := rest }
  else
    match lookupStr data w with
    | none => { s with queue := rest }
    | some e =>
        let st := procRelA data maxD w dw e.relatedWords ⟨s.edges, s.visited, s.dmap, []⟩
        ⟨rest ++ st.pend, st.visited,
          s.nodes ++ [⟨w, w, e.definition, dw, e.relatedWords⟩], st.edges, st.dmap⟩

/-- The `while (queue.length > 0)` loop of `MemStorage.getWordGraph`,
with explicit fuel (proved sufficient below). -/
def loopA (data : EtymologyData) (maxD : Nat) : Nat → AState → AState
  | 0, s => s
  | fuel + 1, s =>
      match s.queue with
      | [] => s
      | qi :: rest => loopA data maxD fuel (stepA data maxD qi.word qi.depth rest s)

/-- Initial BFS state: queue, visited set and depth map seeded with the
normalized root at depth 0. -/
def initA (nroot : String) : AState :=
  ⟨[⟨nroot, 0⟩], [nroot], [], [], [(nroot, 0)]⟩

/-- Number of index keys not yet visited (used for the fuel bound). -/
def unvisitedCount (data : EtymologyData) (visited : List String) : Nat :=
  ((keysDedup data).filter (fun k => decide (k ∉ visited))).length

/-- Termination measure of the variant-A loop. -/
def measureA (data : EtymologyData) (s : AState) : Nat :=
  2 * unvisitedCount data s.visited + s.queue.length

/-- Fuel sufficient to drain the variant-A BFS queue. -/
def fuelA (data : EtymologyData) : Nat := 2 * (keysDedup data).length + 1

/-- The BFS phase of `MemStorage.getWordGraph` for a root present in the
index (the caller checks presence). -/
def bfsMem (data : EtymologyData) (nroot : String) (maxD : Nat) : AState :=
  loopA data maxD (fuelA data) (initA nroot)

/-! ## Hub pruning (shared by `MemStorage.getWordGraph` and the lambda) -/

/-- `nodeDepthMap.get(w) || 0`. -/
def dmGet (dm : List (String × Nat)) (w : String) : Nat := (lookupStr dm w).getD 0

/-- Add `c` to the child set of `p` (a JS `Map<string, Set<string>>`:
create the entry if absent, `Set.add` ignores duplicates). -/
def addChild (m : List (String × List String)) (p c : String) :
    List (String × List String) :=
  match m with
  | [] => [(p, [c])]
  | (k, cs) :: rest =>
      if k = p then (k, if c ∈ cs then cs else cs ++ [c]) :: rest
      else (k, cs) :: addChild rest p c

/-- Processing of one edge when building the parent → children map: the
endpoint with strictly smaller depth (via `|| 0` lookup) is the parent;
equal depths contribute nothing. -/
def cbpStep (dm : List (String × Nat)) (m : List (String × List String))
    (e : GraphEdge) : List (String × List String) :=
  if dmGet dm e.efrom < dmGet dm e.eto then addChild m e.efrom e.eto
  else if dmGet dm e.eto < dmGet dm e.efrom then addChild m e.eto e.efrom
  else m

/-- Build the parent → children map from the edge list. -/
def childrenByParent (edges : List GraphEdge) (dm : List (String × Nat)) :
    List (String × List String) :=
  edges.foldl (cbpStep dm) []

/-- Add every element of `cs` not already present (`Set.add` in a loop). -/
def addAllNew (removed : List String) (cs : List String) : List String :=
  cs.foldl (fun r c => if c ∈ r then r else r ++ [c]) removed

/-- Processing of one map entry during hub detection: if the node is in
the depth map with depth ≥ 1 and has at least `HUB_THRESHOLD = 80`
distinct children, mark all its children. -/
def hubStep (dm : List (String × Nat)) (r : List String)
    (pc : String × List String) : List String :=
  match lookupStr dm pc.1 with
  | none => r
  | some dp => if 1 ≤ dp ∧ 80 ≤ pc.2.length then addAllNew r pc.2 else r

/-- Mark the direct children of every hub node for removal. -/
def removedInit (cbp : List (String × List String)) (dm : List (String × Nat)) :
    List String :=
  cbp.foldl (hubStep dm) []

/-- One pass of the `while (changed)` loop: children of already-marked
parents are marked (the marked set is live during the pass). -/
def closurePass (cbp : List (String × List String)) (removed : List String) :
    List String :=
  cbp.foldl (fun r pc => if pc.1 ∈ r then addAllNew r pc.2 else r) removed

/-- The `while (changed)` fixed-point loop, with explicit fuel: repeat
`closurePass` until a pass adds nothing. -/
def closeRemoval (cbp : List (String × List String)) : Nat → List String → List String
  | 0, r => r
  | fuel + 1, r =>
      let r2 := closurePass cbp r
      if r2 = r then r else closeRemoval cbp fuel r2

/-- All child words appearing in the parent → children map. -/
def childUniverse (cbp : List (String × List String)) : List String :=
  (cbp.foldr (fun pc acc => pc.2 ++ acc) []).dedup

/-- Fuel sufficient for the removal fixed point. -/
def fuelClose (cbp : List (String × List String)) : Nat := (childUniverse cbp).length + 1

/-- The fully-marked removal set of the hub pruner. -/
def removedFinal (edges : List GraphEdge) (dm : List (String × Nat)) : List String :=
  let cbp := childrenByParent edges dm
  closeRemoval cbp (fuelClose cbp) (removedInit cbp dm)

/-- Hub pruning: drop marked nodes and edges with a marked endpoint. -/
def pruneGraph (nodes : List GraphNode) (edges : List GraphEdge)
    (dm : List (String × Nat)) : List GraphNode × List GraphEdge :=
  let removed := removedFinal edges dm
  (nodes.filter (fun n => decide (n.id ∉ removed)),
   edges.filter (fun e => decide (e.efrom ∉ removed ∧ e.eto ∉ removed)))

/-- `MemStorage.getWordGraph`: empty result when the normalized word is
absent, else BFS followed by hub pruning. -/
def getWordGraphMem (data : EtymologyData) (word : String) (maxD : Nat) :
    List GraphNode × List GraphEdge :=
  match lookupStr data (normalizeWord word) with
  | none => ([], [])
  | some _ =>
      let s := bfsMem data (normalizeWord word) maxD
      pruneGraph s.nodes s.edges s.dmap

/-! ## Variant B: the lambda/server `getWordGraph` (visited marked at dequeue) -/

/-- State of the variant-B BFS loop. -/
structure BState where
  queue : List QItem
  visited : List String
  nodes : List GraphNode
  edges : List GraphEdge
deriving DecidableEq

/-- The inner related-words loop of the lambda `getWordGraph`: the visited
set is fixed during the loop; an edge is pushed (without an unordered-pair
test) for every in-index unvisited related word, which is also enqueued
when within the depth limit. -/
def procRelB (data : EtymologyData) (maxD : Nat) (cw : String) (cd : Nat)
    (visited : List String) :
    List String → List GraphEdge → List QItem → List GraphEdge × List QItem
  | [], es, qs => (es, qs)
  | rw :: rest, es, qs =>
      let nr := normalizeWord rw
      if nr ∉ visited ∧ (lookupStr data nr).isSome then
        procRelB data maxD cw cd visited rest (es ++ [⟨cw, nr⟩])
          (if cd < maxD then qs ++ [⟨nr, cd + 1⟩] else qs)
      else
        procRelB data maxD cw cd visited rest es qs

/-- One dequeue of the variant-B BFS: skip when visited or too deep, else
mark visited, emit the node and process related words. -/
def stepB (data : EtymologyData) (maxD : Nat) (w : String) (dw : Nat)
    (rest : List QItem) (s : BState) : BState :=
  if w ∈ s.visited ∨ maxD < dw then { s with queue := rest }
  else
    match lookupStr data w with
    | none => { s with queue := rest, visited := s.visited ++ [w] }
    | some e =>
        let ep := procRelB data maxD w dw (s.visited ++ [w]) e.relatedWords s.edges []
        ⟨rest ++ ep.2, s.visited ++ [w],
          s.nodes ++ [⟨w, w, e.definition, dw, e.relatedWords⟩], ep.1⟩

/-- The variant-B BFS loop with explicit fuel. -/
def loopB (data : EtymologyData) (maxD : Nat) : Nat → BState → BState
  | 0, s => s
  | fuel + 1, s =>
      match s.queue with
      | [] => s
      | qi :: rest => loopB data maxD fuel (stepB data maxD qi.word qi.depth rest s)

/-- The longest related-words list of the index (for the fuel bound). -/
def maxRelated (data : EtymologyData) : Nat :=
  data.foldr (fun p acc => max p.2.relatedWords.length acc) 0

/-- Termination measure of the variant-B loop. -/
def measureB (data : EtymologyData) (s : BState) : Nat :=
  (maxRelated data + 1) * unvisitedCount data s.visited + s.queue.length

/-- Fuel sufficient to drain the variant-B BFS queue. -/
def fuelB (data : EtymologyData) : Nat :=
  (maxRelated data + 1) * (keysDedup data).length + 1

/-- The BFS phase of the lambda `getWordGraph` for a root present in the
index. -/
def bfsLam (data : EtymologyData) (nroot : String) (maxD : Nat) : BState :=
  loopB data maxD (fuelB data) ⟨[⟨nroot, 0⟩], [], [], []⟩

/-- The server-bundle `getWordGraph` (part_005): variant-B BFS without
pruning. -/
def getWordGraphSrv (data : EtymologyData) (word : String) (maxD : Nat) :
    List GraphNode × List GraphEdge :=
  match lookupStr data (normalizeWord word) with
  | none => ([], [])
  | some _ =>
      let s := bfsLam data (normalizeWord word) maxD
      (s.nodes, s.edges)

/-- The lambda `getWordGraph` builds the depth map from the node list. -/
def dmFromNodes (ns : List GraphNode) : List (String × Nat) :=
  ns.foldl (fun m n => dmSet m n.id n.depth) []

/-- The lambda `getWordGraph` (getWord/storage.ts): variant-B BFS followed
by hub pruning (the `ENABLE_HUB_PRUNING` flag is `true` in the source). -/
def getWordGraphLam (data : EtymologyData) (word : String) (maxD : Nat) :
    List GraphNode × List GraphEdge :=
  match lookupStr data (normalizeWord word) with
  | none => ([], [])
  | some _ =>
      let s := bfsLam data (normalizeWord word) maxD
      pruneGraph s.nodes s.edges (dmFromNodes s.nodes)

/-! ## The stats precomputer's counting BFS (`computeGraphSize`) -/

/-- State of the counting BFS of the stats precomputer. -/
structure CState where
  queue : List QItem
  visited : List String
deriving DecidableEq

/-- The inner related-words loop of `computeGraphSize`: enqueue in-index
unvisited related words while below the depth bound. -/
def procRelC (data : EtymologyData) (maxD : Nat) (cd : Nat) (visited : List String) :
    List String → List QItem → List QItem
  | [], qs => qs
  | rw :: rest, qs =>
      let nr := normalizeWord rw
      if nr ∉ visited ∧ (lookupStr data nr).isSome ∧ cd < maxD then
        procRelC data maxD cd visited rest (qs ++ [⟨nr, cd + 1⟩])
      else
        procRelC data maxD cd visited rest qs

/-- One dequeue of the counting BFS (visited marked at dequeue time). -/
def stepC (data : EtymologyData) (maxD : Nat) (w : String) (dw : Nat)
    (rest : List QItem) (s : CState) : CState :=
  if w ∈ s.visited ∨ maxD < dw then { s with queue := rest }
  else
    match lookupStr data w with
    | none => ⟨rest, s.visited ++ [w]⟩
    | some e => ⟨rest ++ procRelC data maxD dw (s.visited ++ [w]) e.relatedWords [], s.visited ++ [w]⟩

/-- The counting BFS loop with explicit fuel. -/
def loopC (data : EtymologyData) (maxD : Nat) : Nat → CState → CState
  | 0, s => s
  | fuel + 1, s =>
      match s.queue with
      | [] => s
      | qi :: rest => loopC data maxD fuel (stepC data maxD qi.word qi.depth rest s)

/-- `computeGraphSize` of the stats precomputer: 0 when the normalized
word is absent, else the number of visited words of the counting BFS. -/
def computeGraphSize (data : EtymologyData) (word : String) (maxD : Nat) : Nat :=
  match lookupStr data (normalizeWord word) with
  | none => 0
  | some _ =>
      (loopC data maxD (fuelB data) ⟨[⟨normalizeWord word, 0⟩], []⟩).visited.length

/-! ## The weighted sampler (getRandomWord) and its binary search -/

/-- An entry of the loaded `word-stats.json` table (numbers as read from
JSON, embedded as rationals). -/
structure StatEntry where
  word : String
  numConnections : ℚ
  graphSize : ℚ
  cumulativeWeight : ℚ
deriving DecidableEq

/-- The loaded `word-stats.json` file: `{ totalWeight, words }`. -/
structure WordStatsTable where
  totalWeight : ℚ
  words : List StatEntry
deriving DecidableEq

/-- Out-of-bounds reads `words[i]` return this placeholder (the proofs
below show indices stay in bounds, so its value is irrelevant). -/
def defaultEntry : StatEntry := ⟨"", 0, 0, 0⟩

/-- The `while (left < right)` binary-search loop of `getRandomWord`,
with explicit fuel (one unit per iteration; sufficiency proved below):
`mid = floor((left+right)/2)`; move `left` past `mid` when
`words[mid].cumulativeWeight < target`, else move `right` to `mid`. -/
def bsearchGo (ws : List StatEntry) (target : ℚ) : Nat → Nat → Nat → Nat
  | 0, left, _ => left
  | fuel + 1, left, right =>
      if left < right then
        let mid := (left + right) / 2
        if (ws.getD mid defaultEntry).cumulativeWeight < target then
          bsearchGo ws target fuel (mid + 1) right
        else
          bsearchGo ws target fuel left mid
      else left

/-- The index selected by the sampler's binary search, starting from
`left = 0`, `right = words.length - 1`. -/
def sampleIdx (ws : List StatEntry) (target : ℚ) : Nat :=
  bsearchGo ws target ws.length 0 (ws.length - 1)

/-- The fallback of `MemStorage.getRandomWord` (lambda getWord/index.ts):
scan the keys and return the first word whose entry has a related word. -/
def fallbackGo (data : EtymologyData) : List String → Option String
  | [] => none
  | w :: rest =>
      match lookupStr data w with
      | some e => if 0 < e.relatedWords.length then some w else fallbackGo data rest
      | none => fallbackGo data rest

/-- `Fallback: return any word with connections` (first in key order). -/
def fallbackWord (data : EtymologyData) : Option String :=
  fallbackGo data (data.map Prod.fst)

/-- `MemStorage.getRandomWord` of the lambda getWord handler: when the
stats table is loaded and non-empty, binary-search with target
`Math.random() * totalWeight` (the random unit `u` is a parameter);
otherwise fall back to the first word with connections, or `undefined`. -/
def getRandomWordMem (stats : Option WordStatsTable) (data : EtymologyData)
    (u : ℚ) : Option String :=
  match stats with
  | some t =>
      if 0 < t.words.length then
        some ((t.words.getD (sampleIdx t.words (u * t.totalWeight)) defaultEntry).word)
      else fallbackWord data
  | none => fallbackWord data

/-- Step 1 of the server `MemStorage.getRandomWord` (part_002): up to 100
attempts to hit a word with related words; `rnd t` is the random index
drawn at attempt `t` (out-of-range draws read `undefined` and fail the
attempt, like in JS). -/
def pickX (data : EtymologyData) (keys : List String) (rnd : Nat → Nat) :
    Nat → Nat → Option (String × WordEntry)
  | 0, _ => none
  | fuel + 1, t =>
      match keys.get? (rnd t) with
      | some cand =>
          match lookupStr data cand with
          | some e =>
              if 0 < e.relatedWords.length then some (cand, e)
              else pickX data keys rnd fuel (t + 1)
          | none => pickX data keys rnd fuel (t + 1)
      | none => pickX data keys rnd fuel (t + 1)

/-- Step 2 of the server `MemStorage.getRandomWord`: up to 100 attempts to
pick a related word of `X` whose entry has related words. -/
def pickY (data : EtymologyData) (ex : WordEntry) (rnd : Nat → Nat) :
    Nat → Nat → Option String
  | 0, _ => none
  | fuel + 1, t =>
      match ex.relatedWords.get? (rnd t) with
      | some rw =>
          match lookupStr data (normalizeWord rw) with
          | some ey =>
              if 0 < ey.relatedWords.length then some (normalizeWord rw)
              else pickY data ex rnd fuel (t + 1)
          | none => pickY data ex rnd fuel (t + 1)
      | none => pickY data ex rnd fuel (t + 1)

/-- The server `MemStorage.getRandomWord` (part_002): pick X with related
words, then a related Y with related words, returning `wordY || wordX`
(JS falsiness: an empty-string Y falls back to X). -/
def getRandomWordRetry (data : EtymologyData) (rnd1 rnd2 : Nat → Nat) :
    Option String :=
  let keys := data.map Prod.fst
  if keys.length = 0 then none
  else
    match pickX data keys rnd1 100 0 with
    | none => none
    | some (x, ex) =>
        match pickY data ex rnd2 100 0 with
        | none => some x
        | some y => if y = "" then some x else some y

/-! ## The stats precomputer's table construction (part_003 main) -/

/-- A raw per-word statistic `{word, numConnections, graphSize}`. -/
structure StatRaw where
  word : String
  numConnections : Nat
  graphSize : Nat
deriving DecidableEq

/-- A saved table entry with its running cumulative weight. -/
structure CumEntry where
  word : String
  numConnections : Nat
  graphSize : Nat
  cumulativeWeight : Nat
deriving DecidableEq

/-- The saved `word-stats.json` content `{ totalWeight, words }`. -/
structure StatsFile where
  totalWeight : Nat
  words : List CumEntry
deriving DecidableEq

/-- Per-word statistics: `numConnections = relatedWords.length`,
`graphSize = computeGraphSize(word, 3)` for each key of the dataset. -/
def computeStatsList (data : EtymologyData) : List StatRaw :=
  data.filterMap (fun p =>
    match lookupStr data p.1 with
    | none => none
    | some e => some ⟨p.1, e.relatedWords.length, computeGraphSize data p.1 3⟩)

/-- The eligibility filter: `graphSize > 1 && numConnections > 0 &&
graphSize <= MAX_NODES (850)`. -/
def statFilter (s : StatRaw) : Bool :=
  decide (1 < s.graphSize) && decide (0 < s.numConnections) && decide (s.graphSize ≤ 850)

/-- Stable insertion by ascending `graphSize` (the `sort` comparator
`a.graphSize - b.graphSize`). -/
def insertByGraphSize (s : StatRaw) : List StatRaw → List StatRaw
  | [] => [s]
  | x :: rest =>
      if x.graphSize ≤ s.graphSize then x :: insertByGraphSize s rest
      else s :: x :: rest

/-- Sort the filtered statistics by ascending `graphSize`. -/
def sortByGraphSize : List StatRaw → List StatRaw
  | [] => []
  | x :: rest => insertByGraphSize x (sortByGraphSize rest)

/-- The `cumulative += numConnections` scan assigning running cumulative
weights. -/
def scanCum (c : Nat) : List StatRaw → List CumEntry
  | [] => []
  | s :: rest =>
      ⟨s.word, s.numConnections, s.graphSize, c + s.numConnections⟩ ::
        scanCum (c + s.numConnections) rest

/-- The table built by the stats precomputer: filter, sort, scan; the
saved `totalWeight` is the final value of the `cumulative` variable. -/
def buildStatsTable (data : EtymologyData) : StatsFile :=
  let filtered := sortByGraphSize ((computeStatsList data).filter statFilter)
  ⟨filtered.foldl (fun c s => c + s.numConnections) 0, scanCum 0 filtered⟩

/-! ## General lemmas -/

theorem lookupStr_mem {α : Type} {l : List (String × α)} {w : String} {v : α}
    (h : lookupStr l w = some v) : (w, v) ∈ l := by
  induction l with
  | nil => simp [lookupStr] at h
  | cons p rest ih =>
      obtain ⟨k, x⟩ := p
      by_cases hk : k = w
      · subst hk
        simp [lookupStr] at h
        subst h
        exact List.mem_cons_self _ _
      · simp [lookupStr, hk] at h
        exact List.mem_cons_of_mem _ (ih h)

theorem lookupStr_isSome_mem {α : Type} {l : List (String × α)} {w : String}
    (h : (lookupStr l w).isSome) : w ∈ l.map Prod.fst := by
  obtain ⟨v, hv⟩ := Option.isSome_iff_exists.mp h
  exact List.mem_map.mpr ⟨(w, v), lookupStr_mem hv, rfl⟩

/-! ## The stats precomputer table invariant (claim C6) -/

theorem scanCum_length (c : Nat) (l : List StatRaw) :
    (scanCum c l).length = l.length := by
  induction l generalizing c with
  | nil => rfl
  | cons s rest ih => simp [scanCum, ih]

theorem scanCum_head (c : Nat) (l : List StatRaw) (h : 0 < (scanCum c l).length) :
    ((scanCum c l).get ⟨0, h⟩).cumulativeWeight
      = c + ((scanCum c l).get ⟨0, h⟩).numConnections := by
  cases l with
  | nil => simp [scanCum] at h
  | cons s rest => simp [scanCum]

theorem scanCum_adjacent (l : List StatRaw) (c : Nat) (i : Nat)
    (h : i + 1 < (scanCum c l).length) :
    ((scanCum c l).get ⟨i + 1, h⟩).cumulativeWeight
      = ((scanCum c l).get ⟨i, Nat.lt_of_succ_lt h⟩).cumulativeWeight
        + ((scanCum c l).get ⟨i + 1, h⟩).numConnections := by
  induction l generalizing c i with
  | nil => simp [scanCum] at h
  | cons s rest ih =>
      cases i with
      | zero =>
          cases rest with
          | nil => simp [scanCum] at h
          | cons s2 rest2 => simp [scanCum]
      | succ j =>
          have h2 : j + 1 < (scanCum (c + s.numConnections) rest).length := by
            simpa [scanCum] using h
          simpa [scanCum] using ih (c + s.numConnections) j h2

theorem scanCum_mem_nc {c : Nat} {l : List StatRaw} {e : CumEntry}
    (h : e ∈ scanCum c l) : ∃ s ∈ l, e.numConnections = s.numConnections := by
  induction l generalizing c with
  | nil => simp [scanCum] at h
  | cons s rest ih =>
      simp only [scanCum, List.mem_cons] at h
      rcases h with h | h
      · exact ⟨s, List.mem_cons_self _ _, by simp [h]⟩
      · obtain ⟨s2, hs2, he⟩ := ih h
        exact ⟨s2, List.mem_cons_of_mem _ hs2, he⟩

theorem scanCum_getLast (l : List StatRaw) (c : Nat) (h : l ≠ []) :
    ∃ e, (scanCum c l).getLast? = some e
      ∧ e.cumulativeWeight = c + (l.map StatRaw.numConnections).sum := by
  induction l generalizing c with
  | nil => exact absurd rfl h
  | cons s rest ih =>
      cases rest with
      | nil =>
          refine ⟨⟨s.word, s.numConnections, s.graphSize, c + s.numConnections⟩, ?_, ?_⟩
          · simp [scanCum]
          · simp
      | cons s2 rest2 =>
          obtain ⟨e, he, hcw⟩ := ih (c := c + s.numConnections) (by simp)
          refine ⟨e, ?_, ?_⟩
          · simpa [scanCum, List.getLast?_cons_cons] using he
          · rw [hcw]; simp; ring

theorem foldl_add_nc (l : List StatRaw) (a : Nat) :
    l.foldl (fun c s => c + s.numConnections) a = a + (l.map StatRaw.numConnections).sum := by
  induction l generalizing a with
  | nil => simp
  | cons s rest ih => simp [ih]; ring

theorem insertByGraphSize_perm (s : StatRaw) (l : List StatRaw) :
    List.Perm (insertByGraphSize s l) (s :: l) := by
  induction l with
  | nil => rfl
  | cons x rest ih =>
      by_cases hle : x.graphSize ≤ s.graphSize
      · simp only [insertByGraphSize, if_pos hle]
        exact ((ih.cons x).trans (List.Perm.swap s x rest)).symm.symm
      · simp [insertByGraphSize, if_neg hle]

theorem sortByGraphSize_perm (l : List StatRaw) :
    List.Perm (sortByGraphSize l) l := by
  induction l with
  | nil => rfl
  | cons x rest ih =>
      exact (insertByGraphSize_perm x (sortByGraphSize rest)).trans (ih.cons x)

theorem sorted_filtered_pos (data : EtymologyData) (s : StatRaw)
    (hs : s ∈ sortByGraphSize ((computeStatsList data).filter statFilter)) :
    0 < s.numConnections := by
  have hmem : s ∈ (computeStatsList data).filter statFilter :=
    (sortByGraphSize_perm _).mem_iff.mp hs
  have hf : statFilter s = true := List.of_mem_filter hmem
  simp only [statFilter, Bool.and_eq_true, decide_eq_true_eq] at hf
  exact hf.1.2

/-- C6: over the filtered entry sequence, the table built by the stats
precomputer satisfies `cumulativeWeight[0] = numConnections[0]`,
`cumulativeWeight[i] = cumulativeWeight[i-1] + numConnections[i]` for
`i ≥ 1`, `totalWeight` equals the last entry's cumulative weight (0 when
no entry survives the filter), and the cumulative weights are strictly
increasing because every retained entry has positive `numConnections`. -/
theorem C6_stats_table_invariant (data : EtymologyData) :
    (∀ h0 : 0 < (buildStatsTable data).words.length,
        ((buildStatsTable data).words.get ⟨0, h0⟩).cumulativeWeight
          = ((buildStatsTable data).words.get ⟨0, h0⟩).numConnections) ∧
    (∀ i, ∀ h : i + 1 < (buildStatsTable data).words.length,
        ((buildStatsTable data).words.get ⟨i + 1, h⟩).cumulativeWeight
          = ((buildStatsTable data).words.get ⟨i, Nat.lt_of_succ_lt h⟩).cumulativeWeight
            + ((buildStatsTable data).words.get ⟨i + 1, h⟩).numConnections) ∧
    (buildStatsTable data).totalWeight
      = ((buildStatsTable data).words.getLast?.map CumEntry.cumulativeWeight).getD 0 ∧
    (∀ i, ∀ h : i + 1 < (buildStatsTable data).words.length,
        ((buildStatsTable data).words.get ⟨i, Nat.lt_of_succ_lt h⟩).cumulativeWeight
          < ((buildStatsTable data).words.get ⟨i + 1, h⟩).cumulativeWeight) := by
  have hwords : (buildStatsTable data).words
      = scanCum 0 (sortByGraphSize ((computeStatsList data).filter statFilter)) := rfl
  have htot : (buildStatsTable data).totalWeight
      = (sortByGraphSize ((computeStatsList data).filter statFilter)).foldl
          (fun c s => c + s.numConnections) 0 := rfl
  refine ⟨?_, ?_, ?_, ?_⟩
  · intro h0
    have h1 := scanCum_head 0 (sortByGraphSize ((computeStatsList data).filter statFilter)) h0
    rw [Nat.zero_add] at h1
    exact h1
  · intro i h
    exact scanCum_adjacent (sortByGraphSize ((computeStatsList data).filter statFilter)) 0 i h
  · rw [htot, foldl_add_nc, hwords]
    cases hfe : sortByGraphSize ((computeStatsList data).filter statFilter) with
    | nil => simp [scanCum]
    | cons s rest =>
        obtain ⟨e, hlast, hcw⟩ := scanCum_getLast (s :: rest) 0 (by simp)
        rw [← hfe] at hlast hcw ⊢
        rw [hlast]
        simpa using hcw.symm
  · intro i h
    show ((scanCum 0 (sortByGraphSize ((computeStatsList data).filter statFilter))).get
          ⟨i, Nat.lt_of_succ_lt h⟩).cumulativeWeight
      < ((scanCum 0 (sortByGraphSize ((computeStatsList data).filter statFilter))).get
          ⟨i + 1, h⟩).cumulativeWeight
    have h2 := scanCum_adjacent (sortByGraphSize ((computeStatsList data).filter statFilter))
      0 i h
    have hmem : ((scanCum 0 (sortByGraphSize ((computeStatsList data).filter statFilter))).get
        ⟨i + 1, h⟩)
        ∈ scanCum 0 (sortByGraphSize ((computeStatsList data).filter statFilter)) :=
      List.get_mem _ _ _
    obtain ⟨s, hs, hnc⟩ := scanCum_mem_nc hmem
    have hpos : 0 < ((scanCum 0 (sortByGraphSize
        ((computeStatsList data).filter statFilter))).get ⟨i + 1, h⟩).numConnections := by
      rw [hnc]; exact sorted_filtered_pos data s hs
    omega

/-- Witness for C6 at a concrete two-word index (two eligible entries). -/
theorem C6_stats_table_invariant_witness :
    (0 : Nat) + 1 < (buildStatsTable [("a", ⟨"A", ["b"]⟩), ("b", ⟨"B", ["a"]⟩)]).words.length ∧
    ((buildStatsTable [("a", ⟨"A", ["b"]⟩), ("b", ⟨"B", ["a"]⟩)]).words.get
        ⟨1, by decide⟩).cumulativeWeight
      = ((buildStatsTable [("a", ⟨"A", ["b"]⟩), ("b", ⟨"B", ["a"]⟩)]).words.get
          ⟨0, by decide⟩).cumulativeWeight
        + ((buildStatsTable [("a", ⟨"A", ["b"]⟩), ("b", ⟨"B", ["a"]⟩)]).words.get
            ⟨1, by decide⟩).numConnections ∧
    ((buildStatsTable [("a", ⟨"A", ["b"]⟩), ("b", ⟨"B", ["a"]⟩)]).words.get
        ⟨0, by decide⟩).cumulativeWeight
      < ((buildStatsTable [("a", ⟨"A", ["b"]⟩), ("b", ⟨"B", ["a"]⟩)]).words.get
          ⟨1, by decide⟩).cumulativeWeight :=
  ⟨by decide,
    (C6_stats_table_invariant [("a", ⟨"A", ["b"]⟩), ("b", ⟨"B", ["a"]⟩)]).2.1 0 (by decide),
    (C6_stats_table_invariant [("a", ⟨"A", ["b"]⟩), ("b", ⟨"B", ["a"]⟩)]).2.2.2 0 (by decide)⟩

/-! ## Binary-search correctness (claims C5 and C10) -/

theorem cw_sorted_mono (ws : List StatEntry)
    (hsort : ∀ i, i + 1 < ws.length →
      (ws.getD i defaultEntry).cumulativeWeight ≤ (ws.getD (i + 1) defaultEntry).cumulativeWeight)
    (i j : Nat) (hij : i ≤ j) (hj : j < ws.length) :
    (ws.getD i defaultEntry).cumulativeWeight ≤ (ws.getD j defaultEntry).cumulativeWeight := by
  induction j, hij using Nat.le_induction with
  | base => exact le_refl _
  | succ n hn ih =>
      exact le_trans (ih (Nat.lt_of_succ_lt hj)) (hsort n hj)


theorem bsearchGo_succ (ws : List StatEntry) (target : ℚ) (fuel l r : Nat) :
    bsearchGo ws target (fuel + 1) l r =
      if l < r then
        if (ws.getD ((l + r) / 2) defaultEntry).cumulativeWeight < target then
          bsearchGo ws target fuel ((l + r) / 2 + 1) r
        else bsearchGo ws target fuel l ((l + r) / 2)
      else l := rfl

theorem bsearchGo_spec (ws : List StatEntry) (target : ℚ)
    (hsort : ∀ i, i + 1 < ws.length →
      (ws.getD i defaultEntry).cumulativeWeight ≤ (ws.getD (i + 1) defaultEntry).cumulativeWeight) :
    ∀ fuel l r, l ≤ r → r < ws.length → r - l ≤ fuel →
      (∀ j, j < l → (ws.getD j defaultEntry).cumulativeWeight < target) →
      target ≤ (ws.getD r defaultEntry).cumulativeWeight →
      (∀ j, j < bsearchGo ws target fuel l r →
          (ws.getD j defaultEntry).cumulativeWeight < target) ∧
      target ≤ (ws.getD (bsearchGo ws target fuel l r) defaultEntry).cumulativeWeight ∧
      bsearchGo ws target fuel l r ≤ r ∧ l ≤ bsearchGo ws target fuel l r := by
  intro fuel
  induction fuel with
  | zero =>
      intro l r hlr hr hfuel hpre hpost
      have : l = r := by omega
      subst this
      exact ⟨hpre, hpost, le_refl _, le_refl _⟩
  | succ fuel ih =>
      intro l r hlr hr hfuel hpre hpost
      by_cases hlt : l < r
      · have hmidlt : (l + r) / 2 < r := by omega
        have hmidge : l ≤ (l + r) / 2 := by omega
        by_cases hcmp : (ws.getD ((l + r) / 2) defaultEntry).cumulativeWeight < target
        · rw [bsearchGo_succ, if_pos hlt, if_pos hcmp]
          have hrec := ih ((l + r) / 2 + 1) r (by omega) hr (by omega)
            (fun j hj => by
              by_cases hjl : j < l
              · exact hpre j hjl
              · exact lt_of_le_of_lt
                  (cw_sorted_mono ws hsort j ((l + r) / 2) (by omega) (by omega)) hcmp)
            hpost
          exact ⟨hrec.1, hrec.2.1, hrec.2.2.1, by omega⟩
        · rw [bsearchGo_succ, if_pos hlt, if_neg hcmp]
          have hrec := ih l ((l + r) / 2) (by omega) (by omega) (by omega) hpre
            (le_of_not_lt hcmp)
          exact ⟨hrec.1, hrec.2.1, le_trans hrec.2.2.1 (le_of_lt hmidlt), hrec.2.2.2⟩
      · have : l = r := by omega
        subst this
        rw [bsearchGo_succ, if_neg hlt]
        exact ⟨hpre, hpost, le_refl _, le_refl _⟩

theorem bsearchGo_bounds (ws : List StatEntry) (target : ℚ) :
    ∀ fuel l r, l ≤ r →
      l ≤ bsearchGo ws target fuel l r ∧ bsearchGo ws target fuel l r ≤ r := by
  intro fuel
  induction fuel with
  | zero => intro l r hlr; exact ⟨le_refl _, hlr⟩
  | succ fuel ih =>
      intro l r hlr
      by_cases hlt : l < r
      · by_cases hcmp : (ws.getD ((l + r) / 2) defaultEntry).cumulativeWeight < target
        · rw [bsearchGo_succ, if_pos hlt, if_pos hcmp]
          have hrec := ih ((l + r) / 2 + 1) r (by omega)
          exact ⟨by omega, hrec.2⟩
        · rw [bsearchGo_succ, if_pos hlt, if_neg hcmp]
          have hrec := ih l ((l + r) / 2) (by omega)
          exact ⟨hrec.1, by omega⟩
      · rw [bsearchGo_succ, if_neg hlt]
        exact ⟨le_refl _, hlr⟩

theorem bsearchGo_stable (ws : List StatEntry) (target : ℚ) :
    ∀ fuel l r, r - l ≤ fuel →
      bsearchGo ws target (fuel + 1) l r = bsearchGo ws target fuel l r := by
  intro fuel
  induction fuel with
  | zero =>
      intro l r h
      have hlt : ¬ l < r := by omega
      rw [bsearchGo_succ, if_neg hlt]
      rfl
  | succ fuel ih =>
      intro l r h
      by_cases hlt : l < r
      · by_cases hcmp : (ws.getD ((l + r) / 2) defaultEntry).cumulativeWeight < target
        · rw [bsearchGo_succ ws target (fuel + 1) l r, if_pos hlt, if_pos hcmp,
            bsearchGo_succ ws target fuel l r, if_pos hlt, if_pos hcmp]
          exact ih ((l + r) / 2 + 1) r (by omega)
        · rw [bsearchGo_succ ws target (fuel + 1) l r, if_pos hlt, if_neg hcmp,
            bsearchGo_succ ws target fuel l r, if_pos hlt, if_neg hcmp]
          exact ih l ((l + r) / 2) (by omega)
      · rw [bsearchGo_succ ws target (fuel + 1) l r, if_neg hlt,
          bsearchGo_succ ws target fuel l r, if_neg hlt]

theorem bsearchGo_fuel_free (ws : List StatEntry) (target : ℚ) :
    ∀ fuel l r, r - l ≤ fuel →
      bsearchGo ws target fuel l r = bsearchGo ws target (r - l) l r := by
  intro fuel
  induction fuel with
  | zero => intro l r h; rw [show r - l = 0 by omega]
  | succ fuel ih =>
      intro l r h
      by_cases hle : r - l ≤ fuel
      · rw [bsearchGo_stable ws target fuel l r hle]
        exact ih l r hle
      · rw [show r - l = fuel + 1 by omega]

/-- C10: for every loaded stats table with at least one entry and any
real target `Math.random() * totalWeight`, the binary-search loop of
`getRandomWord` converges (extra fuel beyond `words.length - 1`
iterations never changes the result, i.e. `left` and `right` have met)
and the returned index is within `[0, words.length - 1]`, so the lookup
`words[left]` never accesses outside the entry array — with no
assumption on the entries (unsorted and zero-weight entries included). -/
theorem C10_sampler_binary_search_safe (ws : List StatEntry) (target : ℚ)
    (hne : ws ≠ []) :
    sampleIdx ws target ≤ ws.length - 1 ∧
    sampleIdx ws target < ws.length ∧
    ∀ fuel, ws.length - 1 ≤ fuel →
      bsearchGo ws target fuel 0 (ws.length - 1) = sampleIdx ws target := by
  have hlen : 0 < ws.length := List.length_pos.mpr hne
  have hb := bsearchGo_bounds ws target ws.length 0 (ws.length - 1) (by omega)
  refine ⟨hb.2, ?_, ?_⟩
  · show bsearchGo ws target ws.length 0 (ws.length - 1) < ws.length
    have := hb.2
    omega
  · intro fuel hf
    show bsearchGo ws target fuel 0 (ws.length - 1)
        = bsearchGo ws target ws.length 0 (ws.length - 1)
    rw [bsearchGo_fuel_free ws target fuel 0 (ws.length - 1) (by omega),
      bsearchGo_fuel_free ws target ws.length 0 (ws.length - 1) (by omega)]

/-- Witness for C10: a one-entry table with an arbitrary target. -/
theorem C10_sampler_binary_search_safe_witness :
    ([⟨"a", 1, 0, 1⟩] : List StatEntry) ≠ [] ∧
    sampleIdx [⟨"a", 1, 0, 1⟩] (7 / 2) < ([⟨"a", 1, 0, 1⟩] : List StatEntry).length :=
  ⟨List.cons_ne_nil _ _,
    (C10_sampler_binary_search_safe [⟨"a", 1, 0, 1⟩] (7 / 2) (List.cons_ne_nil _ _)).2.1⟩

/-- C5: on a well-formed sampling table (non-empty, nondecreasing
cumulative weights, `totalWeight` the last cumulative weight, hence
nonnegative) and a random unit `u ∈ [0, 1)`, `getRandomWord` returns
`words[i].word` where `i` is the smallest index with
`cumulativeWeight[i] ≥ u * totalWeight` (the returned index satisfies
the bound, and every smaller index has cumulative weight below the
target). -/
theorem C5_sample_weighted_choice (t : WordStatsTable) (u : ℚ)
    (hne : t.words ≠ [])
    (hsort : ∀ i, i + 1 < t.words.length →
      (t.words.getD i defaultEntry).cumulativeWeight
        ≤ (t.words.getD (i + 1) defaultEntry).cumulativeWeight)
    (hlast : (t.words.getD (t.words.length - 1) defaultEntry).cumulativeWeight
        = t.totalWeight)
    (htw0 : 0 ≤ t.totalWeight) (hu0 : 0 ≤ u) (hu1 : u < 1) :
    (∀ data : EtymologyData, getRandomWordMem (some t) data u
        = some ((t.words.getD (sampleIdx t.words (u * t.totalWeight)) defaultEntry).word)) ∧
    sampleIdx t.words (u * t.totalWeight) < t.words.length ∧
    u * t.totalWeight
      ≤ (t.words.getD (sampleIdx t.words (u * t.totalWeight)) defaultEntry).cumulativeWeight ∧
    (∀ j, j < sampleIdx t.words (u * t.totalWeight) →
      (t.words.getD j defaultEntry).cumulativeWeight < u * t.totalWeight) := by
  have hlen : 0 < t.words.length := List.length_pos.mpr hne
  have htarget : u * t.totalWeight
      ≤ (t.words.getD (t.words.length - 1) defaultEntry).cumulativeWeight := by
    rw [hlast]
    calc u * t.totalWeight ≤ 1 * t.totalWeight :=
          mul_le_mul_of_nonneg_right hu1.le htw0
      _ = t.totalWeight := one_mul _
  have hspec := bsearchGo_spec t.words (u * t.totalWeight) hsort t.words.length 0
    (t.words.length - 1) (by omega) (by omega) (by omega)
    (fun j hj => absurd hj (Nat.not_lt_zero j)) htarget
  refine ⟨?_, ?_, ?_, ?_⟩
  · intro data
    simp [getRandomWordMem, hlen]
  · show bsearchGo t.words (u * t.totalWeight) t.words.length 0 (t.words.length - 1)
        < t.words.length
    have := hspec.2.2.1
    omega
  · exact hspec.2.1
  · exact hspec.1

/-- The sampling table of Scenario D: entries `a` (weight 1, cumulative
1) and `b` (weight 3, cumulative 4), total weight 4. -/
def scenarioDTable : WordStatsTable := ⟨4, [⟨"a", 1, 0, 1⟩, ⟨"b", 3, 0, 4⟩]⟩

/-- Witness for C5: the three Scenario D samples. `sample(0.1)` returns
`"a"`, `sample(0.5)` and `sample(0.95)` return `"b"`. -/
theorem C5_sample_weighted_choice_witness :
    getRandomWordMem (some scenarioDTable) [] (1 / 10) = some "a" ∧
    getRandomWordMem (some scenarioDTable) [] (1 / 2) = some "b" ∧
    getRandomWordMem (some scenarioDTable) [] (19 / 20) = some "b" := by
  have hne : scenarioDTable.words ≠ [] := List.cons_ne_nil _ _
  have hsort : ∀ i, i + 1 < scenarioDTable.words.length →
      (scenarioDTable.words.getD i defaultEntry).cumulativeWeight
        ≤ (scenarioDTable.words.getD (i + 1) defaultEntry).cumulativeWeight := by
    intro i hi
    have hi0 : i = 0 := by
      simp only [scenarioDTable, List.length_cons, List.length_nil] at hi
      omega
    subst hi0
    norm_num [scenarioDTable, defaultEntry]
  have hlast : (scenarioDTable.words.getD (scenarioDTable.words.length - 1)
      defaultEntry).cumulativeWeight = scenarioDTable.totalWeight := by
    norm_num [scenarioDTable, defaultEntry]
  have htw0 : (0 : ℚ) ≤ scenarioDTable.totalWeight := by norm_num [scenarioDTable]
  refine ⟨?_, ?_, ?_⟩
  · rw [(C5_sample_weighted_choice scenarioDTable (1 / 10) hne hsort hlast htw0
      (by norm_num) (by norm_num)).1 []]
    norm_num [scenarioDTable, sampleIdx, bsearchGo, defaultEntry]
  · rw [(C5_sample_weighted_choice scenarioDTable (1 / 2) hne hsort hlast htw0
      (by norm_num) (by norm_num)).1 []]
    norm_num [scenarioDTable, sampleIdx, bsearchGo, defaultEntry]
  · rw [(C5_sample_weighted_choice scenarioDTable (19 / 20) hne hsort hlast htw0
      (by norm_num) (by norm_num)).1 []]
    norm_num [scenarioDTable, sampleIdx, bsearchGo, defaultEntry]

/-! ## getRandomWord (claim C7) -/

/-- C7 counterexample: a non-empty index (one word, no related words).
With the stats table unavailable, `MemStorage.getRandomWord` of the
lambda returns `undefined`, and so does the retry-based server variant —
refuting "absent only if the index is empty". -/
theorem C7_counterexample_nonempty_absent :
    ([("a", ⟨"defA", []⟩)] : EtymologyData) ≠ [] ∧
    getRandomWordMem none [("a", ⟨"defA", []⟩)] 0 = none ∧
    getRandomWordRetry [("a", ⟨"defA", []⟩)] (fun _ => 0) (fun _ => 0) = none :=
  ⟨List.cons_ne_nil _ _, by decide, by decide⟩

theorem fallbackGo_none_iff (data : EtymologyData) :
    ∀ ws : List String, fallbackGo data ws = none
      ↔ ∀ w ∈ ws, ∀ e, lookupStr data w = some e → e.relatedWords = [] := by
  intro ws
  induction ws with
  | nil => simp [fallbackGo]
  | cons w rest ih =>
      cases hl : lookupStr data w with
      | none =>
          simp only [fallbackGo, hl]
          rw [ih]
          constructor
          · intro h
            intro x hx e he
            rcases List.mem_cons.mp hx with hx | hx
            · subst hx; rw [hl] at he; exact absurd he (by simp)
            · exact h x hx e he
          · intro h x hx e he
            exact h x (List.mem_cons_of_mem _ hx) e he
      | some e =>
          by_cases hrel : 0 < e.relatedWords.length
          · simp only [fallbackGo, hl, if_pos hrel]
            constructor
            · intro h; exact absurd h (by simp)
            · intro h
              have := h w (List.mem_cons_self _ _) e hl
              rw [this] at hrel
              exact absurd hrel (by simp)
          · simp only [fallbackGo, hl, if_neg hrel]
            rw [ih]
            constructor
            · intro h x hx e2 he2
              rcases List.mem_cons.mp hx with hx | hx
              · subst hx
                rw [hl] at he2
                have he3 : e = e2 := by
                  injection he2
                subst he3
                simpa using hrel
              · exact h x hx e2 he2
            · intro h x hx e2 he2
              exact h x (List.mem_cons_of_mem _ hx) e2 he2

theorem fallbackWord_none_iff (data : EtymologyData) :
    fallbackWord data = none
      ↔ ∀ w e, lookupStr data w = some e → e.relatedWords = [] := by
  rw [fallbackWord, fallbackGo_none_iff]
  constructor
  · intro h w e he
    exact h w (lookupStr_isSome_mem (by rw [he]; rfl)) e he
  · intro h w _ e he
    exact h w e he

theorem pickX_none (data : EtymologyData) (keys : List String) (rnd : Nat → Nat)
    (hno : ∀ w e, lookupStr data w = some e → e.relatedWords = []) :
    ∀ fuel t, pickX data keys rnd fuel t = none := by
  intro fuel
  induction fuel with
  | zero => intro t; rfl
  | succ fuel ih =>
      intro t
      cases hk : keys.get? (rnd t) with
      | none =>
          simp only [pickX, hk]
          exact ih (t + 1)
      | some cand =>
          cases hl : lookupStr data cand with
          | none =>
              simp only [pickX, hk, hl]
              exact ih (t + 1)
          | some e =>
              have hrel : e.relatedWords = [] := hno cand e hl
              simp only [pickX, hk, hl, hrel, List.length_nil, Nat.lt_irrefl, if_false]
              exact ih (t + 1)

/-- C7 amended: `getRandomWord` returns absent not only for an empty
index — for the lambda variant it returns absent exactly when the stats
table is unavailable or empty and no indexed word has a related word
(so with a usable table, or with any connected word, it returns some
word); the retry-based server variant returns absent whenever no indexed
word has a related word, even on a non-empty index. -/
theorem C7_amended_random_word_absent :
    (∀ (stats : Option WordStatsTable) (data : EtymologyData) (u : ℚ),
      getRandomWordMem stats data u = none
        ↔ ((∀ t, stats = some t → t.words = []) ∧
            ∀ w e, lookupStr data w = some e → e.relatedWords = [])) ∧
    (∀ data : EtymologyData,
      (∀ w e, lookupStr data w = some e → e.relatedWords = []) →
      ∀ rnd1 rnd2, getRandomWordRetry data rnd1 rnd2 = none) := by
  constructor
  · intro stats data u
    cases stats with
    | none =>
        simp only [getRandomWordMem]
        rw [fallbackWord_none_iff]
        constructor
        · intro h; exact ⟨(fun t ht => by cases ht), h⟩
        · intro h; exact h.2
    | some t =>
        by_cases hlen : 0 < t.words.length
        · simp only [getRandomWordMem, if_pos hlen]
          constructor
          · intro h; exact absurd h (by simp)
          · intro h
            have := h.1 t rfl
            rw [this] at hlen
            exact absurd hlen (by simp)
        · simp only [getRandomWordMem, if_neg hlen]
          rw [fallbackWord_none_iff]
          constructor
          · intro h
            refine ⟨fun t2 ht2 => ?_, h⟩
            have ht : t2 = t := by injection ht2.symm
            subst ht
            exact List.length_eq_zero.mp (by omega)
          · intro h; exact h.2
  · intro data hno rnd1 rnd2
    show (if (data.map Prod.fst).length = 0 then none
      else
        match pickX data (data.map Prod.fst) rnd1 100 0 with
        | none => none
        | some (x, ex) =>
            match pickY data ex rnd2 100 0 with
            | none => some x
            | some y => if y = "" then some x else some y) = none
    by_cases hz : (data.map Prod.fst).length = 0
    · rw [if_pos hz]
    · rw [if_neg hz, pickX_none data (data.map Prod.fst) rnd1 hno 100 0]

/-- Witness for C7's amended claim: the retry variant on a concrete
one-word index with no related words, and the iff at a concrete state. -/
theorem C7_amended_random_word_absent_witness :
    getRandomWordRetry [("a", ⟨"defA", []⟩)] (fun t => t) (fun t => t + 1) = none :=
  C7_amended_random_word_absent.2 [("a", ⟨"defA", []⟩)]
    (by
      intro w e he
      by_cases hw : "a" = w
      · simp only [lookupStr, if_pos hw] at he
        have : (⟨"defA", []⟩ : WordEntry) = e := by injection he
        rw [← this]
      · simp only [lookupStr, if_neg hw] at he
        exact absurd he (by simp [lookupStr]))
    (fun t => t) (fun t => t + 1)

/-! ## Hub-pruning lemmas (claims C2 and C3) -/

theorem addAllNew_cons (r : List String) (c : String) (rest : List String) :
    addAllNew r (c :: rest) = addAllNew (if c ∈ r then r else r ++ [c]) rest := rfl

theorem addAllNew_mem (cs : List String) : ∀ r x,
    x ∈ addAllNew r cs ↔ x ∈ r ∨ x ∈ cs := by
  induction cs with
  | nil => intro r x; simp [addAllNew]
  | cons c rest ih =>
      intro r x
      rw [addAllNew_cons, ih]
      by_cases hc : c ∈ r
      · rw [if_pos hc]
        simp only [List.mem_cons]
        constructor
        · rintro (h | h)
          · exact Or.inl h
          · exact Or.inr (Or.inr h)
        · rintro (h | h | h)
          · exact Or.inl h
          · subst h; exact Or.inl hc
          · exact Or.inr h
      · rw [if_neg hc]
        simp only [List.mem_append, List.mem_singleton, List.mem_cons]
        tauto

theorem addAllNew_append (cs : List String) : ∀ r,
    ∃ ext, addAllNew r cs = r ++ ext ∧ ∀ x ∈ ext, x ∈ cs ∧ x ∉ r := by
  induction cs with
  | nil => intro r; exact ⟨[], by simp [addAllNew], by simp⟩
  | cons c rest ih =>
      intro r
      rw [addAllNew_cons]
      by_cases hc : c ∈ r
      · rw [if_pos hc]
        obtain ⟨ext, heq, hext⟩ := ih r
        exact ⟨ext, heq, fun x hx => ⟨List.mem_cons_of_mem _ (hext x hx).1, (hext x hx).2⟩⟩
      · rw [if_neg hc]
        obtain ⟨ext, heq, hext⟩ := ih (r ++ [c])
        refine ⟨c :: ext, ?_, ?_⟩
        · rw [heq, List.append_assoc]; rfl
        · intro x hx
          rcases List.mem_cons.mp hx with hx | hx
          · subst hx; exact ⟨List.mem_cons_self _ _, hc⟩
          · have := hext x hx
            refine ⟨List.mem_cons_of_mem _ this.1, fun hxr => this.2 ?_⟩
            exact List.mem_append.mpr (Or.inl hxr)

theorem closurePass_cons (pc : String × List String)
    (rest : List (String × List String)) (r : List String) :
    closurePass (pc :: rest) r
      = closurePass rest (if pc.1 ∈ r then addAllNew r pc.2 else r) := rfl

theorem closurePass_sub (cbp : List (String × List String)) : ∀ r,
    r ⊆ closurePass cbp r := by
  induction cbp with
  | nil => intro r x hx; exact hx
  | cons pc rest ih =>
      intro r x hx
      rw [closurePass_cons]
      apply ih
      by_cases hp : pc.1 ∈ r
      · rw [if_pos hp]; exact (addAllNew_mem _ _ _).mpr (Or.inl hx)
      · rw [if_neg hp]; exact hx

theorem closurePass_new (cbp : List (String × List String)) : ∀ r x,
    x ∈ closurePass cbp r → x ∈ r ∨ ∃ pc ∈ cbp, x ∈ pc.2 := by
  induction cbp with
  | nil => intro r x hx; exact Or.inl hx
  | cons pc rest ih =>
      intro r x hx
      rw [closurePass_cons] at hx
      rcases ih _ x hx with h | ⟨pc2, hpc2, hx2⟩
      · by_cases hp : pc.1 ∈ r
        · rw [if_pos hp] at h
          rcases (addAllNew_mem _ _ _).mp h with h | h
          · exact Or.inl h
          · exact Or.inr ⟨pc, List.mem_cons_self _ _, h⟩
        · rw [if_neg hp] at h; exact Or.inl h
      · exact Or.inr ⟨pc2, List.mem_cons_of_mem _ hpc2, hx2⟩

theorem closurePass_trigger (cbp : List (String × List String)) :
    ∀ r p cs c, (p, cs) ∈ cbp → p ∈ r → c ∈ cs → c ∈ closurePass cbp r := by
  induction cbp with
  | nil => intro r p cs c hmem; exact absurd hmem (List.not_mem_nil _)
  | cons pc rest ih =>
      intro r p cs c hmem hp hc
      rw [closurePass_cons]
      rcases List.mem_cons.mp hmem with hmem | hmem
      · subst hmem
        rw [if_pos hp]
        exact closurePass_sub rest _ ((addAllNew_mem _ _ _).mpr (Or.inr hc))
      · apply ih _ p cs c hmem _ hc
        by_cases hq : pc.1 ∈ r
        · rw [if_pos hq]; exact (addAllNew_mem _ _ _).mpr (Or.inl hp)
        · rw [if_neg hq]; exact hp

theorem closurePass_append (cbp : List (String × List String)) : ∀ r,
    ∃ ext, closurePass cbp r = r ++ ext
      ∧ ∀ x ∈ ext, (∃ pc ∈ cbp, x ∈ pc.2) ∧ x ∉ r := by
  induction cbp with
  | nil => intro r; exact ⟨[], by simp [closurePass], by simp⟩
  | cons pc rest ih =>
      intro r
      rw [closurePass_cons]
      by_cases hp : pc.1 ∈ r
      · rw [if_pos hp]
        obtain ⟨ext1, heq1, hext1⟩ := addAllNew_append pc.2 r
        obtain ⟨ext2, heq2, hext2⟩ := ih (addAllNew r pc.2)
        refine ⟨ext1 ++ ext2, ?_, ?_⟩
        · rw [heq2, heq1, List.append_assoc]
        · intro x hx
          rcases List.mem_append.mp hx with hx | hx
          · exact ⟨⟨pc, List.mem_cons_self _ _, (hext1 x hx).1⟩, (hext1 x hx).2⟩
          · have h2 := hext2 x hx
            obtain ⟨⟨pc2, hpc2, hxpc2⟩, hnx⟩ := h2
            refine ⟨⟨pc2, List.mem_cons_of_mem _ hpc2, hxpc2⟩, fun hxr => hnx ?_⟩
            exact (addAllNew_mem _ _ _).mpr (Or.inl hxr)
      · rw [if_neg hp]
        obtain ⟨ext, heq, hext⟩ := ih r
        exact ⟨ext, heq, fun x hx =>
          ⟨⟨(hext x hx).1.choose, List.mem_cons_of_mem _ (hext x hx).1.choose_spec.1,
            (hext x hx).1.choose_spec.2⟩, (hext x hx).2⟩⟩

theorem closeRemoval_sub (cbp : List (String × List String)) : ∀ fuel r,
    r ⊆ closeRemoval cbp fuel r := by
  intro fuel
  induction fuel with
  | zero => intro r x hx; exact hx
  | succ fuel ih =>
      intro r x hx
      show x ∈ (if closurePass cbp r = r then r else closeRemoval cbp fuel (closurePass cbp r))
      by_cases h : closurePass cbp r = r
      · rw [if_pos h]; exact hx
      · rw [if_neg h]; exact ih _ (closurePass_sub cbp r hx)

theorem closeRemoval_new (cbp : List (String × List String)) : ∀ fuel r x,
    x ∈ closeRemoval cbp fuel r → x ∈ r ∨ ∃ pc ∈ cbp, x ∈ pc.2 := by
  intro fuel
  induction fuel with
  | zero => intro r x hx; exact Or.inl hx
  | succ fuel ih =>
      intro r x hx
      rw [show closeRemoval cbp (fuel + 1) r
          = (if closurePass cbp r = r then r else closeRemoval cbp fuel (closurePass cbp r))
          from rfl] at hx
      by_cases h : closurePass cbp r = r
      · rw [if_pos h] at hx; exact Or.inl hx
      · rw [if_neg h] at hx
        rcases ih _ x hx with h2 | h2
        · exact closurePass_new cbp r x h2
        · exact Or.inr h2

theorem filter_length_mono {α : Type} (u : List α) (p q : α → Bool)
    (himp : ∀ y, q y = true → p y = true) :
    (u.filter q).length ≤ (u.filter p).length := by
  induction u with
  | nil => exact le_refl 0
  | cons a rest ih =>
      by_cases hq : q a = true
      · rw [List.filter_cons_of_pos hq, List.filter_cons_of_pos (himp a hq)]
        simpa using ih
      · rw [List.filter_cons_of_neg (by simpa using hq)]
        by_cases hp : p a = true
        · rw [List.filter_cons_of_pos hp]
          exact le_trans ih (by simp)
        · rw [List.filter_cons_of_neg (by simpa using hp)]
          exact ih

theorem filter_length_lt {α : Type} (u : List α) (p q : α → Bool)
    (himp : ∀ y, q y = true → p y = true) (x : α) (hxu : x ∈ u)
    (hpx : p x = true) (hqx : q x = false) :
    (u.filter q).length < (u.filter p).length := by
  induction u with
  | nil => exact absurd hxu (List.not_mem_nil _)
  | cons a rest ih =>
      rcases List.mem_cons.mp hxu with hax | hax
      · subst hax
        rw [List.filter_cons_of_pos hpx, List.filter_cons_of_neg (by simp [hqx])]
        exact Nat.lt_succ_of_le (filter_length_mono rest p q himp)
      · by_cases hq : q a = true
        · rw [List.filter_cons_of_pos hq, List.filter_cons_of_pos (himp a hq)]
          simpa using ih hax
        · rw [List.filter_cons_of_neg (by simpa using hq)]
          by_cases hp : p a = true
          · rw [List.filter_cons_of_pos hp]
            exact Nat.lt_succ_of_le (le_of_lt (ih hax))
          · rw [List.filter_cons_of_neg (by simpa using hp)]
            exact ih hax

theorem childUniverse_mem (cbp : List (String × List String)) (x : String) :
    x ∈ childUniverse cbp ↔ ∃ pc ∈ cbp, x ∈ pc.2 := by
  rw [childUniverse, List.mem_dedup]
  induction cbp with
  | nil => simp
  | cons pc rest ih =>
      show x ∈ pc.2 ++ rest.foldr (fun pc acc => pc.2 ++ acc) [] ↔ _
      rw [List.mem_append, ih]
      constructor
      · rintro (h | ⟨pc2, hpc2, hx2⟩)
        · exact ⟨pc, List.mem_cons_self _ _, h⟩
        · exact ⟨pc2, List.mem_cons_of_mem _ hpc2, hx2⟩
      · rintro ⟨pc2, hpc2, hx2⟩
        rcases List.mem_cons.mp hpc2 with h | h
        · subst h; exact Or.inl hx2
        · exact Or.inr ⟨pc2, h, hx2⟩

/-- Number of child words not yet marked (fuel measure of the removal
fixed point). -/
def missingCount (cbp : List (String × List String)) (r : List String) : Nat :=
  ((childUniverse cbp).filter (fun x => decide (x ∉ r))).length

theorem closurePass_missing_lt (cbp : List (String × List String)) (r : List String)
    (hne : closurePass cbp r ≠ r) :
    missingCount cbp (closurePass cbp r) < missingCount cbp r := by
  obtain ⟨ext, heq, hext⟩ := closurePass_append cbp r
  cases hext2 : ext with
  | nil => rw [hext2] at heq; simp at heq; exact absurd heq hne
  | cons x0 ext2 =>
      subst hext2
      have hx0 := hext x0 (List.mem_cons_self _ _)
      apply filter_length_lt (childUniverse cbp)
        (fun x => decide (x ∉ r)) (fun x => decide (x ∉ closurePass cbp r))
      · intro y hy
        simp only [decide_eq_true_eq] at hy ⊢
        intro hyr
        exact hy (closurePass_sub cbp r hyr)
      · exact (childUniverse_mem cbp x0).mpr hx0.1
      · simp only [decide_eq_true_eq]
        exact hx0.2
      · simp only [decide_eq_false_iff_not, not_not]
        rw [heq]
        exact List.mem_append.mpr (Or.inr (List.mem_cons_self _ _))

theorem closeRemoval_fix (cbp : List (String × List String)) : ∀ fuel r,
    missingCount cbp r < fuel →
    closurePass cbp (closeRemoval cbp fuel r) = closeRemoval cbp fuel r := by
  intro fuel
  induction fuel with
  | zero => intro r h; exact absurd h (Nat.not_lt_zero _)
  | succ fuel ih =>
      intro r h
      rw [show closeRemoval cbp (fuel + 1) r
          = (if closurePass cbp r = r then r else closeRemoval cbp fuel (closurePass cbp r))
          from rfl]
      by_cases hfix : closurePass cbp r = r
      · rw [if_pos hfix]; exact hfix
      · rw [if_neg hfix]
        exact ih (closurePass cbp r)
          (lt_of_lt_of_le (closurePass_missing_lt cbp r hfix) (by omega))

theorem hubStep_cons (dm : List (String × Nat)) (pc : String × List String)
    (rest : List (String × List String)) (r : List String) :
    (pc :: rest).foldl (hubStep dm) r = rest.foldl (hubStep dm) (hubStep dm r pc) := rfl

theorem hubFold_sub (dm : List (String × Nat)) (cbp : List (String × List String)) :
    ∀ r, r ⊆ cbp.foldl (hubStep dm) r := by
  induction cbp with
  | nil => intro r x hx; exact hx
  | cons pc rest ih =>
      intro r x hx
      rw [hubStep_cons]
      apply ih
      show x ∈ hubStep dm r pc
      rw [hubStep]
      cases lookupStr dm pc.1 with
      | none => exact hx
      | some dp =>
          by_cases hcond : 1 ≤ dp ∧ 80 ≤ pc.2.length
          · simp only [if_pos hcond]
            exact (addAllNew_mem _ _ _).mpr (Or.inl hx)
          · simp only [if_neg hcond]
            exact hx

theorem hubFold_trigger (dm : List (String × Nat)) (cbp : List (String × List String)) :
    ∀ r p dp cs c, (p, cs) ∈ cbp → lookupStr dm p = some dp → 1 ≤ dp →
      80 ≤ cs.length → c ∈ cs → c ∈ cbp.foldl (hubStep dm) r := by
  induction cbp with
  | nil => intro r p dp cs c hmem; exact absurd hmem (List.not_mem_nil _)
  | cons pc rest ih =>
      intro r p dp cs c hmem hdp h1 h80 hc
      rw [hubStep_cons]
      rcases List.mem_cons.mp hmem with hmem | hmem
      · subst hmem
        apply hubFold_sub
        show c ∈ hubStep dm r (p, cs)
        rw [hubStep]
        simp only [hdp]
        rw [if_pos ⟨h1, h80⟩]
        exact (addAllNew_mem _ _ _).mpr (Or.inr hc)
      · exact ih _ p dp cs c hmem hdp h1 h80 hc

theorem hubFold_new (dm : List (String × Nat)) (cbp : List (String × List String)) :
    ∀ r x, x ∈ cbp.foldl (hubStep dm) r → x ∈ r ∨ ∃ pc ∈ cbp, x ∈ pc.2 := by
  induction cbp with
  | nil => intro r x hx; exact Or.inl hx
  | cons pc rest ih =>
      intro r x hx
      rw [hubStep_cons] at hx
      rcases ih _ x hx with h | ⟨pc2, hpc2, hx2⟩
      · cases hdp : lookupStr dm pc.1 with
        | none =>
            simp only [hubStep, hdp] at h
            exact Or.inl h
        | some dp =>
            simp only [hubStep, hdp] at h
            by_cases hcond : 1 ≤ dp ∧ 80 ≤ pc.2.length
            · rw [if_pos hcond] at h
              rcases (addAllNew_mem _ _ _).mp h with h | h
              · exact Or.inl h
              · exact Or.inr ⟨pc, List.mem_cons_self _ _, h⟩
            · rw [if_neg hcond] at h
              exact Or.inl h
      · exact Or.inr ⟨pc2, List.mem_cons_of_mem _ hpc2, hx2⟩

theorem addChild_pres (dm : List (String × Nat)) : ∀ (m : List (String × List String))
    (p c : String), dmGet dm p < dmGet dm c →
    (∀ pc ∈ m, ∀ y ∈ pc.2, dmGet dm pc.1 < dmGet dm y) →
    ∀ pc ∈ addChild m p c, ∀ y ∈ pc.2, dmGet dm pc.1 < dmGet dm y := by
  intro m
  induction m with
  | nil =>
      intro p c hpc _ pc2 hpc2 y hy
      rcases List.mem_cons.mp hpc2 with h | h
      · subst h
        rcases List.mem_singleton.mp hy with rfl
        exact hpc
      · exact absurd h (List.not_mem_nil _)
  | cons kcs rest ih =>
      intro p c hpc hm pc2 hpc2 y hy
      obtain ⟨k, cs⟩ := kcs
      by_cases hk : k = p
      · rw [show addChild ((k, cs) :: rest) p c
            = (k, if c ∈ cs then cs else cs ++ [c]) :: rest by
              rw [addChild, if_pos hk]] at hpc2
        rcases List.mem_cons.mp hpc2 with h | h
        · subst h
          by_cases hcc : c ∈ cs
          · rw [if_pos hcc] at hy
            exact hm (k, cs) (List.mem_cons_self _ _) y hy
          · rw [if_neg hcc] at hy
            rcases List.mem_append.mp hy with hy | hy
            · exact hm (k, cs) (List.mem_cons_self _ _) y hy
            · have hy2 : y = c := List.mem_singleton.mp hy
              rw [hy2]
              show dmGet dm k < dmGet dm c
              rw [hk]
              exact hpc
        · exact hm pc2 (List.mem_cons_of_mem _ h) y hy
      · rw [show addChild ((k, cs) :: rest) p c = (k, cs) :: addChild rest p c by
            rw [addChild, if_neg hk]] at hpc2
        rcases List.mem_cons.mp hpc2 with h | h
        · subst h
          exact hm (k, cs) (List.mem_cons_self _ _) y hy
        · exact ih p c hpc (fun pc3 hpc3 => hm pc3 (List.mem_cons_of_mem _ hpc3)) pc2 h y hy

theorem cbpFold_pres (dm : List (String × Nat)) : ∀ (edges : List GraphEdge)
    (m : List (String × List String)),
    (∀ pc ∈ m, ∀ y ∈ pc.2, dmGet dm pc.1 < dmGet dm y) →
    ∀ pc ∈ edges.foldl (cbpStep dm) m, ∀ y ∈ pc.2, dmGet dm pc.1 < dmGet dm y := by
  intro edges
  induction edges with
  | nil => intro m hm; exact hm
  | cons e rest ih =>
      intro m hm
      show ∀ pc ∈ rest.foldl (cbpStep dm) (cbpStep dm m e), _
      apply ih
      rw [cbpStep]
      by_cases h1 : dmGet dm e.efrom < dmGet dm e.eto
      · rw [if_pos h1]
        exact addChild_pres dm m e.efrom e.eto h1 hm
      · rw [if_neg h1]
        by_cases h2 : dmGet dm e.eto < dmGet dm e.efrom
        · rw [if_pos h2]
          exact addChild_pres dm m e.eto e.efrom h2 hm
        · rw [if_neg h2]
          exact hm

theorem childrenByParent_depth (edges : List GraphEdge) (dm : List (String × Nat)) :
    ∀ pc ∈ childrenByParent edges dm, ∀ y ∈ pc.2, dmGet dm pc.1 < dmGet dm y :=
  cbpFold_pres dm edges [] (fun pc hpc => absurd hpc (List.not_mem_nil _))

/-- A word doomed by hub pruning: a direct child of some hub node
(depth ≥ 1 in the depth map, at least 80 distinct children in the derived
parent → children map), or, transitively, a child of a doomed word. -/
inductive Doomed (edges : List GraphEdge) (dm : List (String × Nat)) : String → Prop
  | hub : ∀ p dp cs c, lookupStr dm p = some dp → 1 ≤ dp →
      lookupStr (childrenByParent edges dm) p = some cs → 80 ≤ cs.length →
      c ∈ cs → Doomed edges dm c
  | desc : ∀ p cs c, Doomed edges dm p →
      lookupStr (childrenByParent edges dm) p = some cs → c ∈ cs →
      Doomed edges dm c

theorem doomed_in_removedFinal (edges : List GraphEdge) (dm : List (String × Nat))
    (x : String) (hx : Doomed edges dm x) : x ∈ removedFinal edges dm := by
  induction hx with
  | hub p dp cs c hdp h1 hcs h80 hc =>
      apply closeRemoval_sub
      exact hubFold_trigger dm (childrenByParent edges dm) [] p dp cs c
        (lookupStr_mem hcs) hdp h1 h80 hc
  | desc p cs c hdoomed hcs hc ih =>
      have hfix := closeRemoval_fix (childrenByParent edges dm)
        (fuelClose (childrenByParent edges dm))
        (removedInit (childrenByParent edges dm) dm)
        (by
          show missingCount _ _ < (childUniverse (childrenByParent edges dm)).length + 1
          have := List.length_filter_le
            (fun x => decide (x ∉ removedInit (childrenByParent edges dm) dm))
            (childUniverse (childrenByParent edges dm))
          rw [missingCount]
          omega)
      rw [show removedFinal edges dm
          = closeRemoval (childrenByParent edges dm)
              (fuelClose (childrenByParent edges dm))
              (removedInit (childrenByParent edges dm) dm) from rfl, ← hfix]
      exact closurePass_trigger (childrenByParent edges dm) _ p cs c
        (lookupStr_mem hcs) ih hc

theorem removedFinal_depth_pos (edges : List GraphEdge) (dm : List (String × Nat)) :
    ∀ x ∈ removedFinal edges dm, 1 ≤ dmGet dm x := by
  intro x hx
  have h1 := closeRemoval_new (childrenByParent edges dm)
    (fuelClose (childrenByParent edges dm)) (removedInit (childrenByParent edges dm) dm) x hx
  have h2 : ∃ pc ∈ childrenByParent edges dm, x ∈ pc.2 := by
    rcases h1 with h | h
    · rcases hubFold_new dm (childrenByParent edges dm) [] x h with h3 | h3
      · exact absurd h3 (List.not_mem_nil _)
      · exact h3
    · exact h
  obtain ⟨pc, hpc, hxpc⟩ := h2
  have := childrenByParent_depth edges dm pc hpc x hxpc
  omega

theorem removed_not_in_pruned (nodes : List GraphNode) (edges : List GraphEdge)
    (dm : List (String × Nat)) (x : String) (hx : x ∈ removedFinal edges dm) :
    (∀ n ∈ (pruneGraph nodes edges dm).1, n.id ≠ x) ∧
    (∀ e ∈ (pruneGraph nodes edges dm).2, e.efrom ≠ x ∧ e.eto ≠ x) := by
  constructor
  · intro n hn
    have hmem := List.mem_filter.mp hn
    have hnot : n.id ∉ removedFinal edges dm := by
      have := hmem.2
      simpa using this
    intro heq
    rw [heq] at hnot
    exact hnot hx
  · intro e he
    have hmem := List.mem_filter.mp he
    have hnot : e.efrom ∉ removedFinal edges dm ∧ e.eto ∉ removedFinal edges dm := by
      have := hmem.2
      simpa using this
    constructor
    · intro heq; rw [heq] at hnot; exact hnot.1 hx
    · intro heq; rw [heq] at hnot; exact hnot.2 hx

/-- C2: if a node `N` with depth ≥ 1 (in the depth map) has at least 80
distinct direct children under the depth-comparison parent relation, then
none of those children appears in the pruned node output, no word doomed
by the transitive parent-to-child closure from removed words appears in
the pruned node output, and no edge with a doomed endpoint appears in the
pruned edge output. -/
theorem C2_hub_pruning_invariant (nodes : List GraphNode) (edges : List GraphEdge)
    (dm : List (String × Nat)) (N : String) (dp : Nat) (cs : List String)
    (hdp : lookupStr dm N = some dp) (h1 : 1 ≤ dp)
    (hcs : lookupStr (childrenByParent edges dm) N = some cs) (h80 : 80 ≤ cs.length) :
    (∀ c ∈ cs, ∀ n ∈ (pruneGraph nodes edges dm).1, n.id ≠ c) ∧
    (∀ x, Doomed edges dm x →
      (∀ n ∈ (pruneGraph nodes edges dm).1, n.id ≠ x) ∧
      (∀ e ∈ (pruneGraph nodes edges dm).2, e.efrom ≠ x ∧ e.eto ≠ x)) := by
  constructor
  · intro c hc
    exact (removed_not_in_pruned nodes edges dm c
      (doomed_in_removedFinal edges dm c (Doomed.hub N dp cs c hdp h1 hcs h80 hc))).1
  · intro x hx
    exact removed_not_in_pruned nodes edges dm x (doomed_in_removedFinal edges dm x hx)

/-- A concrete hub: 80 one-character children of the depth-1 node `h`. -/
def hubKids : List String := (List.range 80).map (fun i => String.mk [Char.ofNat (200 + i)])

/-- One edge from `h` to each of its 80 children. -/
def hubEdges : List GraphEdge := hubKids.map (fun c => ⟨"h", c⟩)

/-- Depth map: `h` at depth 1, every child at depth 2. -/
def hubDm : List (String × Nat) := ("h", 1) :: hubKids.map (fun c => (c, 2))

set_option maxRecDepth 8000 in
/-- Witness for C2: the node `h` is a hub with exactly 80 distinct
children, and its child `"A"` is pruned from a node list containing it. -/
theorem C2_hub_pruning_invariant_witness :
    lookupStr hubDm "h" = some 1 ∧
    lookupStr (childrenByParent hubEdges hubDm) "h" = some hubKids ∧
    80 ≤ hubKids.length ∧ String.mk [Char.ofNat 200] ∈ hubKids ∧
    (∀ n ∈ (pruneGraph [⟨String.mk [Char.ofNat 200], String.mk [Char.ofNat 200], "", 2, []⟩]
        hubEdges hubDm).1, n.id ≠ String.mk [Char.ofNat 200]) :=
  ⟨by decide, by decide, by decide, by decide,
    (C2_hub_pruning_invariant [⟨String.mk [Char.ofNat 200], String.mk [Char.ofNat 200], "", 2, []⟩]
      hubEdges hubDm "h" 1 hubKids
      (by decide) (by decide) (by decide) (by decide)).1 (String.mk [Char.ofNat 200]) (by decide)⟩

/-! ## Reachability and minimum-depth lemmas (groundwork for C1, C3, C4, C8, C9) -/

theorem adjOfList_mem (data : EtymologyData) (x : String) : ∀ l : List String,
    x ∈ adjOfList data l ↔ ∃ u ∈ l, x ∈ adjList data u := by
  intro l
  induction l with
  | nil => simp [adjOfList]
  | cons u rest ih =>
      show x ∈ adjList data u ++ adjOfList data rest ↔ _
      rw [List.mem_append, ih]
      constructor
      · rintro (h | ⟨u2, hu2, hx2⟩)
        · exact ⟨u, List.mem_cons_self _ _, h⟩
        · exact ⟨u2, List.mem_cons_of_mem _ hu2, hx2⟩
      · rintro ⟨u2, hu2, hx2⟩
        rcases List.mem_cons.mp hu2 with h | h
        · subst h; exact Or.inl hx2
        · exact Or.inr ⟨u2, h, hx2⟩

theorem reach_succ_mem (data : EtymologyData) (root x : String) (k : Nat) :
    x ∈ reachList data root (k + 1)
      ↔ x ∈ reachList data root k ∨ ∃ u ∈ reachList data root k, x ∈ adjList data u := by
  show x ∈ (reachList data root k ++ adjOfList data (reachList data root k)).dedup ↔ _
  rw [List.mem_dedup, List.mem_append, adjOfList_mem]

theorem reach_mono_succ (data : EtymologyData) (root : String) (k : Nat) :
    reachList data root k ⊆ reachList data root (k + 1) := by
  intro x hx
  exact (reach_succ_mem data root x k).mpr (Or.inl hx)

theorem reach_mono (data : EtymologyData) (root : String) {j k : Nat} (h : j ≤ k) :
    reachList data root j ⊆ reachList data root k := by
  induction k, h using Nat.le_induction with
  | base => exact fun x hx => hx
  | succ n hn ih => exact fun x hx => reach_mono_succ data root n (ih hx)

theorem root_mem_reach (data : EtymologyData) (root : String) (k : Nat) :
    root ∈ reachList data root k :=
  reach_mono data root (Nat.zero_le k) (by show root ∈ [root]; exact List.mem_singleton.mpr rfl)

theorem reach_step (data : EtymologyData) (root : String) {u x : String} {k : Nat}
    (hu : u ∈ reachList data root k) (hx : x ∈ adjList data u) :
    x ∈ reachList data root (k + 1) :=
  (reach_succ_mem data root x k).mpr (Or.inr ⟨u, hu, hx⟩)

theorem adjList_isSome (data : EtymologyData) {u x : String} (hx : x ∈ adjList data u) :
    (lookupStr data x).isSome := by
  rw [adjList] at hx
  revert hx
  cases lookupStr data u with
  | none => intro hx; exact absurd hx (List.not_mem_nil _)
  | some e =>
      intro hx
      exact (List.mem_filter.mp hx).2

theorem adjList_mem_iff (data : EtymologyData) (u : String) (e : WordEntry)
    (he : lookupStr data u = some e) (x : String) :
    x ∈ adjList data u
      ↔ ((lookupStr data x).isSome ∧ ∃ rw ∈ e.relatedWords, normalizeWord rw = x) := by
  rw [adjList, he]
  rw [List.mem_filter, List.mem_map]
  constructor
  · rintro ⟨⟨rw, hrw, hn⟩, hsome⟩
    exact ⟨hsome, rw, hrw, hn⟩
  · rintro ⟨hsome, rw, hrw, hn⟩
    exact ⟨⟨rw, hrw, hn⟩, hsome⟩

theorem minDepth_exists (data : EtymologyData) (root : String) : ∀ (j : Nat) (w : String),
    w ∈ reachList data root j → ∃ m ≤ j, minDepthIs data root w m := by
  intro j
  induction j with
  | zero => intro w hw; exact ⟨0, le_refl 0, hw, Or.inl rfl⟩
  | succ j ih =>
      intro w hw
      by_cases hj : w ∈ reachList data root j
      · obtain ⟨m, hm, hmin⟩ := ih w hj
        exact ⟨m, le_trans hm (Nat.le_succ j), hmin⟩
      · exact ⟨j + 1, le_refl _, hw, Or.inr (by simpa using hj)⟩

theorem minDepth_le (data : EtymologyData) (root : String) {w : String} {m j : Nat}
    (hmin : minDepthIs data root w m) (hj : w ∈ reachList data root j) : m ≤ j := by
  by_contra hlt
  push_neg at hlt
  rcases hmin.2 with h0 | hnot
  · omega
  · exact hnot (reach_mono data root (by omega) hj)

theorem minDepth_unique (data : EtymologyData) (root : String) {w : String} {m m2 : Nat}
    (h1 : minDepthIs data root w m) (h2 : minDepthIs data root w m2) : m = m2 :=
  le_antisymm (minDepth_le data root h1 h2.1) (minDepth_le data root h2 h1.1)

theorem minDepth_root (data : EtymologyData) (root : String) :
    minDepthIs data root root 0 :=
  ⟨List.mem_singleton.mpr rfl, Or.inl rfl⟩

theorem minDepth_zero (data : EtymologyData) (root : String) {w : String}
    (h : minDepthIs data root w 0) : w = root :=
  List.mem_singleton.mp h.1

theorem minDepth_pred (data : EtymologyData) (root : String) {w : String} {m : Nat}
    (h : minDepthIs data root w (m + 1)) :
    ∃ u ∈ reachList data root m, w ∈ adjList data u := by
  have h1 := h.1
  rcases (reach_succ_mem data root w m).mp h1 with h2 | h2
  · rcases h.2 with h3 | h3
    · omega
    · exact absurd (by simpa using h2) (by simpa using h3)
  · exact h2

/-- Two edges represent the same unordered pair of node ids. -/
def unordEq (a b : GraphEdge) : Prop :=
  (a.efrom = b.efrom ∧ a.eto = b.eto) ∨ (a.efrom = b.eto ∧ a.eto = b.efrom)

instance (a b : GraphEdge) : Decidable (unordEq a b) := by
  rw [unordEq]; infer_instance

theorem unordEq_edgeMem (es : List GraphEdge) (a b : String) :
    edgeMem es a b = true ↔ ∃ e ∈ es, unordEq e ⟨a, b⟩ := by
  rw [edgeMem, List.any_eq_true]
  constructor
  · rintro ⟨e, he, hcond⟩
    refine ⟨e, he, ?_⟩
    simp only [Bool.or_eq_true, Bool.and_eq_true, beq_iff_eq] at hcond
    rcases hcond with ⟨h1, h2⟩ | ⟨h1, h2⟩
    · exact Or.inl ⟨h1, h2⟩
    · exact Or.inr ⟨h1, h2⟩
  · rintro ⟨e, he, hcond⟩
    refine ⟨e, he, ?_⟩
    simp only [Bool.or_eq_true, Bool.and_eq_true, beq_iff_eq]
    rcases hcond with ⟨h1, h2⟩ | ⟨h1, h2⟩
    · exact Or.inl ⟨h1, h2⟩
    · exact Or.inr ⟨h1, h2⟩

theorem dmSet_lookup (k : String) (v : Nat) : ∀ (dm : List (String × Nat)) (x : String),
    lookupStr (dmSet dm k v) x = if k = x then some v else lookupStr dm x := by
  intro dm
  induction dm with
  | nil =>
      intro x
      show (if k = x then some v else none) = _
      rfl
  | cons kv rest ih =>
      intro x
      obtain ⟨k2, v2⟩ := kv
      by_cases hk : k2 = k
      · rw [show dmSet ((k2, v2) :: rest) k v = (k, v) :: rest by rw [dmSet, if_pos hk]]
        show (if k = x then some v else lookupStr rest x) = _
        by_cases hkx : k = x
        · rw [if_pos hkx, if_pos hkx]
        · rw [if_neg hkx, if_neg hkx]
          show _ = if k2 = x then some v2 else lookupStr rest x
          have hk2x : ¬ k2 = x := by rw [hk]; exact hkx
          rw [if_neg hk2x]
      · rw [show dmSet ((k2, v2) :: rest) k v = (k2, v2) :: dmSet rest k v by
          rw [dmSet, if_neg hk]]
        show (if k2 = x then some v2 else lookupStr (dmSet rest k v) x) = _
        by_cases hk2x : k2 = x
        · rw [if_pos hk2x]
          have hkx : ¬ k = x := by
            intro h; rw [← h] at hk2x; exact hk hk2x
          rw [if_neg hkx]
          show _ = lookupStr ((k2, v2) :: rest) x
          rw [show lookupStr ((k2, v2) :: rest) x = if k2 = x then some v2 else lookupStr rest x
            from rfl, if_pos hk2x]
        · rw [if_neg hk2x, ih x]
          by_cases hkx : k = x
          · rw [if_pos hkx, if_pos hkx]
          · rw [if_neg hkx, if_neg hkx]
            show _ = lookupStr ((k2, v2) :: rest) x
            rw [show lookupStr ((k2, v2) :: rest) x = if k2 = x then some v2 else lookupStr rest x
              from rfl, if_neg hk2x]


theorem procRelA_skip (data : EtymologyData) (maxD : Nat) (cw : String) (cd : Nat)
    (rw0 : String) (rest : List String) (st : FStateA)
    (hsome : (lookupStr data (normalizeWord rw0)).isSome = false) :
    procRelA data maxD cw cd (rw0 :: rest) st = procRelA data maxD cw cd rest st := by
  rw [procRelA]
  simp only [hsome, Bool.false_eq_true, if_false]

theorem procRelA_vis (data : EtymologyData) (maxD : Nat) (cw : String) (cd : Nat)
    (rw0 : String) (rest : List String) (st : FStateA)
    (hsome : (lookupStr data (normalizeWord rw0)).isSome = true)
    (hvis : normalizeWord rw0 ∈ st.visited) :
    procRelA data maxD cw cd (rw0 :: rest) st
      = procRelA data maxD cw cd rest
          { st with edges := if edgeMem st.edges cw (normalizeWord rw0)
              then st.edges else st.edges ++ [⟨cw, normalizeWord rw0⟩] } := by
  rw [procRelA]
  simp only [hsome, if_true, hvis, if_pos]

theorem procRelA_enq (data : EtymologyData) (maxD : Nat) (cw : String) (cd : Nat)
    (rw0 : String) (rest : List String) (st : FStateA)
    (hsome : (lookupStr data (normalizeWord rw0)).isSome = true)
    (hvis : normalizeWord rw0 ∉ st.visited) (hdep : cd + 1 ≤ maxD) :
    procRelA data maxD cw cd (rw0 :: rest) st
      = procRelA data maxD cw cd rest
          ⟨if edgeMem st.edges cw (normalizeWord rw0)
              then st.edges else st.edges ++ [⟨cw, normalizeWord rw0⟩],
            st.visited ++ [normalizeWord rw0],
            dmSet st.dmap (normalizeWord rw0) (cd + 1),
            st.pend ++ [⟨normalizeWord rw0, cd + 1⟩]⟩ := by
  rw [procRelA]
  simp only [hsome, if_true, hvis, if_false, hdep, if_pos]

theorem procRelA_deep (data : EtymologyData) (maxD : Nat) (cw : String) (cd : Nat)
    (rw0 : String) (rest : List String) (st : FStateA)
    (hsome : (lookupStr data (normalizeWord rw0)).isSome = true)
    (hvis : normalizeWord rw0 ∉ st.visited) (hdep : ¬ (cd + 1 ≤ maxD)) :
    procRelA data maxD cw cd (rw0 :: rest) st
      = procRelA data maxD cw cd rest
          { st with edges := if edgeMem st.edges cw (normalizeWord rw0)
              then st.edges else st.edges ++ [⟨cw, normalizeWord rw0⟩] } := by
  rw [procRelA]
  simp only [hsome, if_true, hvis, if_false, hdep]

theorem procRelA_spec (data : EtymologyData) (maxD : Nat) (cw : String) (cd : Nat) :
    ∀ (rs : List String) (st : FStateA),
    ∃ (nw : List String) (edgesNew : List GraphEdge),
      (procRelA data maxD cw cd rs st).visited = st.visited ++ nw ∧
      (procRelA data maxD cw cd rs st).pend
        = st.pend ++ nw.map (fun r => (⟨r, cd + 1⟩ : QItem)) ∧
      (procRelA data maxD cw cd rs st).edges = st.edges ++ edgesNew ∧
      nw.Nodup ∧
      (∀ r ∈ nw, r ∉ st.visited ∧ (lookupStr data r).isSome ∧ cd + 1 ≤ maxD ∧
        ∃ rw ∈ rs, normalizeWord rw = r) ∧
      (∀ e ∈ edgesNew, e.efrom = cw ∧ (lookupStr data e.eto).isSome ∧
        ∃ rw ∈ rs, normalizeWord rw = e.eto) ∧
      (∀ rw ∈ rs, (lookupStr data (normalizeWord rw)).isSome → cd + 1 ≤ maxD →
        normalizeWord rw ∈ (procRelA data maxD cw cd rs st).visited) ∧
      (∀ x, x ∈ st.visited →
        lookupStr (procRelA data maxD cw cd rs st).dmap x = lookupStr st.dmap x) ∧
      (List.Pairwise (fun a b => ¬ unordEq a b) st.edges →
        List.Pairwise (fun a b => ¬ unordEq a b) (procRelA data maxD cw cd rs st).edges) := by
  intro rs
  induction rs with
  | nil =>
      intro st
      refine ⟨[], [], by simp [procRelA], by simp [procRelA], by simp [procRelA],
        List.nodup_nil, by simp, by simp, by simp, by simp [procRelA], fun h => h⟩
  | cons rw0 rest ih =>
      intro st
      by_cases hsome : (lookupStr data (normalizeWord rw0)).isSome = true
      · by_cases hvis : normalizeWord rw0 ∈ st.visited
        · -- already visited: only the edge list may grow
          have hred := procRelA_vis data maxD cw cd rw0 rest st hsome hvis
          obtain ⟨nw, en, h1, h2, h3, h4, h5, h6, h7, h8, h9⟩ :=
            ih { st with edges := if edgeMem st.edges cw (normalizeWord rw0)
                  then st.edges else st.edges ++ [⟨cw, normalizeWord rw0⟩] }
          refine ⟨nw, (if edgeMem st.edges cw (normalizeWord rw0)
              then [] else [⟨cw, normalizeWord rw0⟩]) ++ en, ?_, ?_, ?_, h4, ?_, ?_, ?_, ?_, ?_⟩
          · rw [hred]; exact h1
          · rw [hred]; exact h2
          · rw [hred, h3]
            by_cases hem : edgeMem st.edges cw (normalizeWord rw0) = true
            · simp [hem]
            · simp [hem]
          · intro r hr
            obtain ⟨ha, hb, hc, rw2, hrw2, hn⟩ := h5 r hr
            exact ⟨ha, hb, hc, rw2, List.mem_cons_of_mem _ hrw2, hn⟩
          · intro e he
            by_cases hem : edgeMem st.edges cw (normalizeWord rw0) = true
            · rw [if_pos hem] at he
              obtain ⟨ha, hb, rw2, hrw2, hn⟩ := h6 e (by simpa using he)
              exact ⟨ha, hb, rw2, List.mem_cons_of_mem _ hrw2, hn⟩
            · rw [if_neg (by simpa using hem)] at he
              rcases List.mem_append.mp he with h | h
              · rw [List.mem_singleton.mp h]
                exact ⟨rfl, hsome, rw0, List.mem_cons_self _ _, rfl⟩
              · obtain ⟨ha, hb, rw2, hrw2, hn⟩ := h6 e h
                exact ⟨ha, hb, rw2, List.mem_cons_of_mem _ hrw2, hn⟩
          · intro rw2 hrw2 hs hd
            rcases List.mem_cons.mp hrw2 with h | h
            · subst h
              rw [hred, h1]
              exact List.mem_append.mpr (Or.inl hvis)
            · rw [hred]
              exact h7 rw2 h hs hd
          · intro x hx
            rw [hred]
            exact h8 x hx
          · intro hp
            rw [hred]
            apply h9
            show List.Pairwise _ (if edgeMem st.edges cw (normalizeWord rw0)
              then st.edges else st.edges ++ [⟨cw, normalizeWord rw0⟩])
            by_cases hem : edgeMem st.edges cw (normalizeWord rw0) = true
            · rw [if_pos hem]; exact hp
            · rw [if_neg (by simpa using hem)]
              rw [List.pairwise_append]
              refine ⟨hp, List.pairwise_singleton _ _, ?_⟩
              intro a ha b hb
              rw [List.mem_singleton.mp hb]
              intro hueq
              exact hem ((unordEq_edgeMem st.edges cw (normalizeWord rw0)).mpr ⟨a, ha, hueq⟩)
        · by_cases hdep : cd + 1 ≤ maxD
          · -- unvisited within depth: mark visited, record depth, enqueue
            have hred := procRelA_enq data maxD cw cd rw0 rest st hsome hvis hdep
            obtain ⟨nw, en, h1, h2, h3, h4, h5, h6, h7, h8, h9⟩ :=
              ih ⟨if edgeMem st.edges cw (normalizeWord rw0)
                    then st.edges else st.edges ++ [⟨cw, normalizeWord rw0⟩],
                  st.visited ++ [normalizeWord rw0],
                  dmSet st.dmap (normalizeWord rw0) (cd + 1),
                  st.pend ++ [⟨normalizeWord rw0, cd + 1⟩]⟩
            refine ⟨normalizeWord rw0 :: nw,
              (if edgeMem st.edges cw (normalizeWord rw0)
                then [] else [⟨cw, normalizeWord rw0⟩]) ++ en, ?_, ?_, ?_, ?_, ?_, ?_, ?_, ?_, ?_⟩
            · rw [hred, h1]; simp
            · rw [hred, h2]; simp
            · rw [hred, h3]
              by_cases hem : edgeMem st.edges cw (normalizeWord rw0) = true
              · simp [hem]
              · simp [hem]
            · refine List.nodup_cons.mpr ⟨?_, h4⟩
              intro hmem
              have := (h5 _ hmem).1
              simp at this
            · intro r hr
              rcases List.mem_cons.mp hr with h | h
              · subst h
                exact ⟨hvis, hsome, hdep, rw0, List.mem_cons_self _ _, rfl⟩
              · obtain ⟨ha, hb, hc, rw2, hrw2, hn⟩ := h5 r h
                refine ⟨fun hmem => ha (List.mem_append.mpr (Or.inl hmem)), hb, hc,
                  rw2, List.mem_cons_of_mem _ hrw2, hn⟩
            · intro e he
              by_cases hem : edgeMem st.edges cw (normalizeWord rw0) = true
              · rw [if_pos hem] at he
                obtain ⟨ha, hb, rw2, hrw2, hn⟩ := h6 e (by simpa using he)
                exact ⟨ha, hb, rw2, List.mem_cons_of_mem _ hrw2, hn⟩
              · rw [if_neg (by simpa using hem)] at he
                rcases List.mem_append.mp he with h | h
                · rw [List.mem_singleton.mp h]
                  exact ⟨rfl, hsome, rw0, List.mem_cons_self _ _, rfl⟩
                · obtain ⟨ha, hb, rw2, hrw2, hn⟩ := h6 e h
                  exact ⟨ha, hb, rw2, List.mem_cons_of_mem _ hrw2, hn⟩
            · intro rw2 hrw2 hs hd
              rcases List.mem_cons.mp hrw2 with h | h
              · subst h
                rw [hred, h1]
                simp
              · rw [hred]
                exact h7 rw2 h hs hd
            · intro x hx
              rw [hred, h8 x (List.mem_append.mpr (Or.inl hx)), dmSet_lookup]
              rw [if_neg ?hne]
              case hne =>
                intro heq
                rw [heq] at hvis
                exact hvis hx
            · intro hp
              rw [hred]
              apply h9
              show List.Pairwise _ (if edgeMem st.edges cw (normalizeWord rw0)
                then st.edges else st.edges ++ [⟨cw, normalizeWord rw0⟩])
              by_cases hem : edgeMem st.edges cw (normalizeWord rw0) = true
              · rw [if_pos hem]; exact hp
              · rw [if_neg (by simpa using hem)]
                rw [List.pairwise_append]
                refine ⟨hp, List.pairwise_singleton _ _, ?_⟩
                intro a ha b hb
                rw [List.mem_singleton.mp hb]
                intro hueq
                exact hem ((unordEq_edgeMem st.edges cw (normalizeWord rw0)).mpr ⟨a, ha, hueq⟩)
          · -- unvisited but beyond the depth limit: only the edge may be added
            have hred := procRelA_deep data maxD cw cd rw0 rest st hsome hvis hdep
            obtain ⟨nw, en, h1, h2, h3, h4, h5, h6, h7, h8, h9⟩ :=
              ih { st with edges := if edgeMem st.edges cw (normalizeWord rw0)
                    then st.edges else st.edges ++ [⟨cw, normalizeWord rw0⟩] }
            refine ⟨nw, (if edgeMem st.edges cw (normalizeWord rw0)
                then [] else [⟨cw, normalizeWord rw0⟩]) ++ en, ?_, ?_, ?_, h4, ?_, ?_, ?_, ?_, ?_⟩
            · rw [hred]; exact h1
            · rw [hred]; exact h2
            · rw [hred, h3]
              by_cases hem : edgeMem st.edges cw (normalizeWord rw0) = true
              · simp [hem]
              · simp [hem]
            · intro r hr
              obtain ⟨ha, hb, hc, rw2, hrw2, hn⟩ := h5 r hr
              exact ⟨ha, hb, hc, rw2, List.mem_cons_of_mem _ hrw2, hn⟩
            · intro e he
              by_cases hem : edgeMem st.edges cw (normalizeWord rw0) = true
              · rw [if_pos hem] at he
                obtain ⟨ha, hb, rw2, hrw2, hn⟩ := h6 e (by simpa using he)
                exact ⟨ha, hb, rw2, List.mem_cons_of_mem _ hrw2, hn⟩
              · rw [if_neg (by simpa using hem)] at he
                rcases List.mem_append.mp he with h | h
                · rw [List.mem_singleton.mp h]
                  exact ⟨rfl, hsome, rw0, List.mem_cons_self _ _, rfl⟩
                · obtain ⟨ha, hb, rw2, hrw2, hn⟩ := h6 e h
                  exact ⟨ha, hb, rw2, List.mem_cons_of_mem _ hrw2, hn⟩
            · intro rw2 hrw2 hs hd
              rcases List.mem_cons.mp hrw2 with h | h
              · subst h
                exact absurd hd hdep
              · rw [hred]
                exact h7 rw2 h hs hd
            · intro x hx
              rw [hred]
              exact h8 x hx
            · intro hp
              rw [hred]
              apply h9
              show List.Pairwise _ (if edgeMem st.edges cw (normalizeWord rw0)
                then st.edges else st.edges ++ [⟨cw, normalizeWord rw0⟩])
              by_cases hem : edgeMem st.edges cw (normalizeWord rw0) = true
              · rw [if_pos hem]; exact hp
              · rw [if_neg (by simpa using hem)]
                rw [List.pairwise_append]
                refine ⟨hp, List.pairwise_singleton _ _, ?_⟩
                intro a ha b hb
                rw [List.mem_singleton.mp hb]
                intro hueq
                exact hem ((unordEq_edgeMem st.edges cw (normalizeWord rw0)).mpr ⟨a, ha, hueq⟩)
      · -- the related word is not a key of the index: skipped entirely
        have hred := procRelA_skip data maxD cw cd rw0 rest st (by simpa using hsome)
        obtain ⟨nw, en, h1, h2, h3, h4, h5, h6, h7, h8, h9⟩ := ih st
        refine ⟨nw, en, by rw [hred]; exact h1, by rw [hred]; exact h2,
          by rw [hred]; exact h3, h4, ?_, ?_, ?_, ?_, ?_⟩
        · intro r hr
          obtain ⟨ha, hb, hc, rw2, hrw2, hn⟩ := h5 r hr
          exact ⟨ha, hb, hc, rw2, List.mem_cons_of_mem _ hrw2, hn⟩
        · intro e he
          obtain ⟨ha, hb, rw2, hrw2, hn⟩ := h6 e he
          exact ⟨ha, hb, rw2, List.mem_cons_of_mem _ hrw2, hn⟩
        · intro rw2 hrw2 hs hd
          rcases List.mem_cons.mp hrw2 with h | h
          · subst h
            exact absurd hs hsome
          · rw [hred]
            exact h7 rw2 h hs hd
        · intro x hx
          rw [hred]
          exact h8 x hx
        · intro hp
          rw [hred]
          exact h9 hp

theorem filter_split {α : Type} (u : List α) (p q : α → Bool)
    (himp : ∀ y, q y = true → p y = true) :
    (u.filter p).length
      = (u.filter q).length + (u.filter (fun x => p x && !q x)).length := by
  induction u with
  | nil => rfl
  | cons a rest ih =>
      by_cases hq : q a = true
      · rw [List.filter_cons_of_pos hq, List.filter_cons_of_pos (himp a hq),
          List.filter_cons_of_neg (by simp [himp a hq, hq])]
        simp [ih]
        omega
      · by_cases hp : p a = true
        · rw [List.filter_cons_of_pos hp, List.filter_cons_of_neg (by simpa using hq),
            List.filter_cons_of_pos (by simp [hp, hq])]
          simp [ih]
          omega
        · rw [List.filter_cons_of_neg (by simpa using hp),
            List.filter_cons_of_neg (by simpa using hq),
            List.filter_cons_of_neg (by simp [hp])]
          exact ih

theorem unvisited_decrease (data : EtymologyData) (V nw : List String)
    (hnodup : nw.Nodup) (hnew : ∀ r ∈ nw, r ∉ V ∧ (lookupStr data r).isSome) :
    unvisitedCount data (V ++ nw) + nw.length ≤ unvisitedCount data V := by
  have himp : ∀ y, decide (y ∉ V ++ nw) = true → decide (y ∉ V) = true := by
    intro y hy
    simp only [decide_eq_true_eq] at hy ⊢
    intro hyv
    exact hy (List.mem_append.mpr (Or.inl hyv))
  have hsplit := filter_split (keysDedup data)
    (fun x => decide (x ∉ V)) (fun x => decide (x ∉ V ++ nw)) himp
  have hsub : ∀ r ∈ nw, r ∈ (keysDedup data).filter
      (fun x => decide (x ∉ V) && !decide (x ∉ V ++ nw)) := by
    intro r hr
    obtain ⟨hnv, hsome⟩ := hnew r hr
    refine List.mem_filter.mpr ⟨?_, ?_⟩
    · rw [keysDedup, List.mem_dedup]
      exact lookupStr_isSome_mem hsome
    · simp only [Bool.and_eq_true, decide_eq_true_eq, Bool.not_eq_true',
        decide_eq_false_iff_not, not_not]
      exact ⟨hnv, List.mem_append.mpr (Or.inr hr)⟩
  have hlen : nw.length ≤ ((keysDedup data).filter
      (fun x => decide (x ∉ V) && !decide (x ∉ V ++ nw))).length :=
    (hnodup.subperm (fun r hr => hsub r hr)).length_le
  rw [unvisitedCount, unvisitedCount]
  beta_reduce at hsplit
  rw [hsplit]
  omega

/-- Invariant of the `MemStorage.getWordGraph` BFS loop (variant A), for
root `nroot` present in the index and depth bound `maxD`. -/
structure InvA (data : EtymologyData) (nroot : String) (maxD : Nat) (s : AState) : Prop where
  qkeys : ∀ qi ∈ s.queue, (lookupStr data qi.word).isSome
  nodesNodup : (s.nodes.map GraphNode.id).Nodup
  queueNodup : (s.queue.map QItem.word).Nodup
  disj : ∀ w ∈ s.queue.map QItem.word, w ∉ s.nodes.map GraphNode.id
  visEq : ∀ w, w ∈ s.visited ↔ (w ∈ s.nodes.map GraphNode.id ∨ w ∈ s.queue.map QItem.word)
  ndepth : ∀ n ∈ s.nodes, minDepthIs data nroot n.id n.depth ∧ n.depth ≤ maxD
  qdepth : ∀ qi ∈ s.queue, minDepthIs data nroot qi.word qi.depth
  procd : ∀ n ∈ s.nodes, ∀ r ∈ adjList data n.id, n.depth + 1 ≤ maxD → r ∈ s.visited
  rootVis : nroot ∈ s.visited
  dmRoot : lookupStr s.dmap nroot = some 0
  epair : List.Pairwise (fun a b => ¬ unordEq a b) s.edges
  eends : ∀ e ∈ s.edges, e.efrom ∈ s.nodes.map GraphNode.id ∧ (lookupStr data e.eto).isSome
  qsplit : ∃ k qa qb, s.queue = qa ++ qb ∧ (∀ qi ∈ qa, qi.depth = k)
    ∧ (∀ qi ∈ qb, qi.depth = k + 1) ∧ k ≤ maxD ∧ (qb ≠ [] → k + 1 ≤ maxD)
    ∧ (qa = [] → qb = []) ∧ (∀ x ∈ reachList data nroot k, x ∈ s.visited)

theorem stepA_emit (data : EtymologyData) (maxD : Nat) (w : String) (dw : Nat)
    (rest : List QItem) (s : AState) (e : WordEntry)
    (hdep : ¬ maxD < dw) (he : lookupStr data w = some e) :
    stepA data maxD w dw rest s
      = ⟨rest ++ (procRelA data maxD w dw e.relatedWords ⟨s.edges, s.visited, s.dmap, []⟩).pend,
          (procRelA data maxD w dw e.relatedWords ⟨s.edges, s.visited, s.dmap, []⟩).visited,
          s.nodes ++ [⟨w, w, e.definition, dw, e.relatedWords⟩],
          (procRelA data maxD w dw e.relatedWords ⟨s.edges, s.visited, s.dmap, []⟩).edges,
          (procRelA data maxD w dw e.relatedWords ⟨s.edges, s.visited, s.dmap, []⟩).dmap⟩ := by
  rw [stepA]
  simp only [hdep, if_false, he]

theorem map_word_pair (d : Nat) : ∀ l : List String,
    (l.map (fun r => (⟨r, d⟩ : QItem))).map QItem.word = l := by
  intro l
  induction l with
  | nil => rfl
  | cons a l2 ih => simp only [List.map_cons, ih]

theorem stepA_inv (data : EtymologyData) (nroot : String) (maxD : Nat)
    (s : AState) (qi : QItem) (rest : List QItem)
    (hq : s.queue = qi :: rest) (hinv : InvA data nroot maxD s) :
    InvA data nroot maxD (stepA data maxD qi.word qi.depth rest s) ∧
    measureA data (stepA data maxD qi.word qi.depth rest s) < measureA data s := by
  obtain ⟨k, qa, qb, hsp, hka, hkb, hkmax, hkbmax, hae, hreach⟩ := hinv.qsplit
  cases qa with
  | nil =>
      rw [hae rfl] at hsp
      rw [hq] at hsp
      exact absurd hsp (by simp)
  | cons qa0 qa' =>
  rw [hq] at hsp
  have hinj : qi = qa0 ∧ rest = qa' ++ qb := by
    have h2 : qi :: rest = qa0 :: (qa' ++ qb) := hsp
    exact ⟨by injection h2, by injection h2⟩
  have hrest : rest = qa' ++ qb := hinj.2
  have hkqi : qi.depth = k := by
    rw [hinj.1]
    exact hka qa0 (List.mem_cons_self _ _)
  have hqik : (lookupStr data qi.word).isSome :=
    hinv.qkeys qi (by rw [hq]; exact List.mem_cons_self _ _)
  obtain ⟨e, he⟩ := Option.isSome_iff_exists.mp hqik
  have hqiVis : qi.word ∈ s.visited :=
    (hinv.visEq qi.word).mpr (Or.inr (by rw [hq]; exact List.mem_map_of_mem _ (List.mem_cons_self _ _)))
  have hqiMin : minDepthIs data nroot qi.word qi.depth :=
    hinv.qdepth qi (by rw [hq]; exact List.mem_cons_self _ _)
  have hdep : ¬ maxD < qi.depth := by omega
  rw [stepA_emit data maxD qi.word qi.depth rest s e hdep he]
  set P := procRelA data maxD qi.word qi.depth e.relatedWords ⟨s.edges, s.visited, s.dmap, []⟩
    with hPdef
  obtain ⟨nw, en, hv, hpend, hed, hnwnodup, hnew, henew, hcompl, hdm, hpair⟩ :=
    procRelA_spec data maxD qi.word qi.depth e.relatedWords ⟨s.edges, s.visited, s.dmap, []⟩
  rw [← hPdef] at hv hpend hed hcompl hdm hpair
  rw [List.nil_append] at hpend
  have hnwP : ∀ r ∈ nw, r ∉ s.visited ∧ (lookupStr data r).isSome
      ∧ qi.depth + 1 ≤ maxD ∧ r ∈ adjList data qi.word := by
    intro r hr
    obtain ⟨ha, hb, hc, rw2, hrw2, hn⟩ := hnew r hr
    exact ⟨ha, hb, hc, (adjList_mem_iff data qi.word e he r).mpr ⟨hb, rw2, hrw2, hn⟩⟩
  have hqw : ∀ x ∈ s.queue.map QItem.word, x ∈ s.visited := by
    intro x hx
    exact (hinv.visEq x).mpr (Or.inr hx)
  have hrestw : ∀ x ∈ rest.map QItem.word, x ∈ s.visited := by
    intro x hx
    apply hqw
    rw [hq]
    exact List.mem_cons_of_mem _ hx
  have hids : ∀ x ∈ s.nodes.map GraphNode.id, x ∈ s.visited := by
    intro x hx
    exact (hinv.visEq x).mpr (Or.inl hx)
  have hqiNotRest : qi.word ∉ rest.map QItem.word := by
    have := hinv.queueNodup
    rw [hq] at this
    simp only [List.map_cons] at this
    exact (List.nodup_cons.mp this).1
  -- invariant fields of the post state
  have A1 : ∀ qi2 ∈ rest ++ P.pend, (lookupStr data qi2.word).isSome := by
    intro qi2 hqi2
    rcases List.mem_append.mp hqi2 with h | h
    · exact hinv.qkeys qi2 (by rw [hq]; exact List.mem_cons_of_mem _ h)
    · rw [hpend] at h
      obtain ⟨r, hr, hr2⟩ := List.mem_map.mp h
      rw [← hr2]
      exact (hnwP r hr).2.1
  have A2 : ((s.nodes ++ [(⟨qi.word, qi.word, e.definition, qi.depth, e.relatedWords⟩ : GraphNode)]).map
      GraphNode.id).Nodup := by
    rw [List.map_append]
    refine hinv.nodesNodup.append (List.nodup_singleton _) ?_
    intro a ha hb
    rcases List.mem_singleton.mp hb
    exact hinv.disj qi.word (by rw [hq]; exact List.mem_map_of_mem _ (List.mem_cons_self _ _)) ha
  have hmapw : (rest ++ P.pend).map QItem.word = rest.map QItem.word ++ nw := by
    rw [List.map_append, hpend]
    congr 1
    exact map_word_pair (qi.depth + 1) nw
  have A3 : ((rest ++ P.pend).map QItem.word).Nodup := by
    rw [hmapw]
    refine List.Nodup.append ?_ hnwnodup ?_
    · have := hinv.queueNodup
      rw [hq, List.map_cons] at this
      exact (List.nodup_cons.mp this).2
    · intro a ha hb
      exact (hnwP a hb).1 (hrestw a ha)
  have A4 : ∀ w ∈ (rest ++ P.pend).map QItem.word,
      w ∉ (s.nodes ++ [(⟨qi.word, qi.word, e.definition, qi.depth, e.relatedWords⟩ : GraphNode)]).map
        GraphNode.id := by
    intro w hw
    rw [List.map_append]
    rw [hmapw] at hw
    intro hmem
    rcases List.mem_append.mp hmem with h | h
    · rcases List.mem_append.mp hw with h2 | h2
      · exact hinv.disj w (by rw [hq]; exact List.mem_cons_of_mem _ (by simpa using h2)) h
      · exact (hnwP w h2).1 (hids w h)
    · have hwq : w = qi.word := by simpa using h
      rcases List.mem_append.mp hw with h2 | h2
      · rw [hwq] at h2
        exact hqiNotRest h2
      · rw [hwq] at h2
        exact (hnwP _ h2).1 hqiVis
  have A5 : ∀ w, w ∈ P.visited ↔
      (w ∈ (s.nodes ++ [(⟨qi.word, qi.word, e.definition, qi.depth, e.relatedWords⟩ : GraphNode)]).map
          GraphNode.id
        ∨ w ∈ (rest ++ P.pend).map QItem.word) := by
    intro w
    rw [hv, hmapw, List.map_append]
    constructor
    · intro hmem
      rcases List.mem_append.mp hmem with h | h
      · rcases (hinv.visEq w).mp h with h2 | h2
        · exact Or.inl (List.mem_append.mpr (Or.inl h2))
        · rw [hq, List.map_cons] at h2
          rcases List.mem_cons.mp h2 with h3 | h3
          · exact Or.inl (List.mem_append.mpr (Or.inr (by simpa using h3)))
          · exact Or.inr (List.mem_append.mpr (Or.inl h3))
      · exact Or.inr (List.mem_append.mpr (Or.inr h))
    · intro hmem
      rcases hmem with h | h
      · rcases List.mem_append.mp h with h2 | h2
        · exact List.mem_append.mpr (Or.inl (hids w h2))
        · have : w = qi.word := by simpa using h2
          rw [this]
          exact List.mem_append.mpr (Or.inl hqiVis)
      · rcases List.mem_append.mp h with h2 | h2
        · exact List.mem_append.mpr (Or.inl (hrestw w h2))
        · exact List.mem_append.mpr (Or.inr h2)
  have A6 : ∀ n ∈ s.nodes ++ [(⟨qi.word, qi.word, e.definition, qi.depth, e.relatedWords⟩ : GraphNode)],
      minDepthIs data nroot n.id n.depth ∧ n.depth ≤ maxD := by
    intro n hn
    rcases List.mem_append.mp hn with h | h
    · exact hinv.ndepth n h
    · rw [List.mem_singleton.mp h]
      refine ⟨hqiMin, ?_⟩
      show qi.depth ≤ maxD
      omega
  have A7 : ∀ qi2 ∈ rest ++ P.pend, minDepthIs data nroot qi2.word qi2.depth := by
    intro qi2 hqi2
    rcases List.mem_append.mp hqi2 with h | h
    · exact hinv.qdepth qi2 (by rw [hq]; exact List.mem_cons_of_mem _ h)
    · rw [hpend] at h
      obtain ⟨r, hr, hr2⟩ := List.mem_map.mp h
      rw [← hr2]
      refine ⟨reach_step data nroot hqiMin.1 (hnwP r hr).2.2.2, Or.inr ?_⟩
      show r ∉ reachList data nroot (qi.depth + 1 - 1)
      rw [Nat.add_sub_cancel]
      intro hmem
      apply (hnwP r hr).1
      apply hreach
      rw [← hkqi]
      exact hmem
  have A8 : ∀ n ∈ s.nodes ++ [(⟨qi.word, qi.word, e.definition, qi.depth, e.relatedWords⟩ : GraphNode)],
      ∀ r ∈ adjList data n.id, n.depth + 1 ≤ maxD → r ∈ P.visited := by
    intro n hn r hr hdep2
    rcases List.mem_append.mp hn with h | h
    · rw [hv]
      exact List.mem_append.mpr (Or.inl (hinv.procd n h r hr hdep2))
    · rw [List.mem_singleton.mp h] at hr hdep2
      obtain ⟨hsome2, rw2, hrw2, hn2⟩ := (adjList_mem_iff data qi.word e he r).mp hr
      have := hcompl rw2 hrw2 (by rw [hn2]; exact hsome2) hdep2
      rw [hn2] at this
      exact this
  have A9 : nroot ∈ P.visited := by
    rw [hv]
    exact List.mem_append.mpr (Or.inl hinv.rootVis)
  have A10 : lookupStr P.dmap nroot = some 0 := by
    rw [hdm nroot hinv.rootVis]
    exact hinv.dmRoot
  have A11 : List.Pairwise (fun a b => ¬ unordEq a b) P.edges := hpair hinv.epair
  have A12 : ∀ e2 ∈ P.edges,
      e2.efrom ∈ (s.nodes ++ [(⟨qi.word, qi.word, e.definition, qi.depth, e.relatedWords⟩ : GraphNode)]).map
        GraphNode.id
      ∧ (lookupStr data e2.eto).isSome := by
    intro e2 he2
    rw [hed] at he2
    rw [List.map_append]
    rcases List.mem_append.mp he2 with h | h
    · obtain ⟨h1, h2⟩ := hinv.eends e2 h
      exact ⟨List.mem_append.mpr (Or.inl h1), h2⟩
    · obtain ⟨h1, h2, _⟩ := henew e2 h
      refine ⟨List.mem_append.mpr (Or.inr ?_), h2⟩
      rw [h1]
      simp
  have hk1max : nw ≠ [] → k + 1 ≤ maxD := by
    intro hne
    cases nw with
    | nil => exact absurd rfl hne
    | cons r rl =>
        have := (hnwP r (List.mem_cons_self _ _)).2.2.1
        omega
  have A13 : ∃ k2 qa2 qb2, rest ++ P.pend = qa2 ++ qb2 ∧ (∀ qi2 ∈ qa2, qi2.depth = k2)
      ∧ (∀ qi2 ∈ qb2, qi2.depth = k2 + 1) ∧ k2 ≤ maxD ∧ (qb2 ≠ [] → k2 + 1 ≤ maxD)
      ∧ (qa2 = [] → qb2 = []) ∧ (∀ x ∈ reachList data nroot k2, x ∈ P.visited) := by
    have hpenddepth : ∀ qi2 ∈ P.pend, qi2.depth = k + 1 := by
      intro qi2 hqi2
      rw [hpend] at hqi2
      obtain ⟨r, _, hr2⟩ := List.mem_map.mp hqi2
      rw [← hr2, ← hkqi]
    have hqbmax2 : qb ++ P.pend ≠ [] → k + 1 ≤ maxD := by
      intro hne
      cases hqb : qb with
      | cons b bs => exact hkbmax (by rw [hqb]; simp)
      | nil =>
          apply hk1max
          intro hnil
          rw [hqb, hpend, hnil] at hne
          simp at hne
    cases hqa' : qa' with
    | cons x xs =>
        refine ⟨k, qa', qb ++ P.pend, ?_, ?_, ?_, hkmax, hqbmax2, ?_, ?_⟩
        · rw [hrest, List.append_assoc]
        · intro qi2 hqi2
          exact hka qi2 (List.mem_cons_of_mem _ hqi2)
        · intro qi2 hqi2
          rcases List.mem_append.mp hqi2 with h | h
          · exact hkb qi2 h
          · exact hpenddepth qi2 h
        · intro h; rw [hqa'] at h; exact absurd h (by simp)
        · intro x hx
          rw [hv]
          exact List.mem_append.mpr (Or.inl (hreach x hx))
    | nil =>
        rw [hqa'] at hrest
        rw [List.nil_append] at hrest
        by_cases hq2 : qb ++ P.pend = []
        · refine ⟨k, [], [], ?_, by simp, by simp, hkmax, by simp, fun _ => rfl, ?_⟩
          · rw [hrest, hq2]
            rfl
          · intro x hx
            rw [hv]
            exact List.mem_append.mpr (Or.inl (hreach x hx))
        · refine ⟨k + 1, qb ++ P.pend, [], ?_, ?_, by simp, hqbmax2 hq2, by simp, ?_, ?_⟩
          · rw [hrest, List.append_nil]
          · intro qi2 hqi2
            rcases List.mem_append.mp hqi2 with h | h
            · exact hkb qi2 h
            · exact hpenddepth qi2 h
          · intro h; exact rfl
          · -- the level transition: everything within k+1 hops is now visited
            intro x hx
            rcases (reach_succ_mem data nroot x k).mp hx with h | ⟨u, huRk, huadj⟩
            · rw [hv]
              exact List.mem_append.mpr (Or.inl (hreach x h))
            · obtain ⟨mu, hmule, hmu⟩ := minDepth_exists data nroot k u huRk
              have huvis : u ∈ P.visited := by
                rw [hv]
                exact List.mem_append.mpr (Or.inl (hreach u huRk))
              rcases (A5 u).mp huvis with h2 | h2
              · obtain ⟨n, hnmem, hnid⟩ := List.mem_map.mp h2
                have hnd := A6 n hnmem
                have hndu : n.depth = mu := by
                  apply minDepth_unique data nroot _ hmu
                  rw [← hnid]
                  exact hnd.1
                have : x ∈ P.visited := by
                  apply A8 n hnmem x (by rw [hnid]; exact huadj)
                  rw [hndu]
                  have := hqbmax2 hq2
                  omega
                exact this
              · rw [hmapw] at h2
                rcases List.mem_append.mp h2 with h3 | h3
                · -- a queued word at level k+1 cannot have minimum depth ≤ k
                  obtain ⟨item, hitem, hitemw⟩ := List.mem_map.mp h3
                  have hitemq : item ∈ s.queue := by
                    rw [hq]
                    exact List.mem_cons_of_mem _ hitem
                  have hitemd : item.depth = k + 1 := hkb item (hrest ▸ hitem)
                  have hmind := hinv.qdepth item hitemq
                  rw [hitemw, hitemd] at hmind
                  have := minDepth_unique data nroot hmu hmind
                  omega
                · exact absurd (hreach u huRk) ((hnwP u h3).1)
  refine ⟨⟨A1, A2, A3, A4, A5, A6, A7, A8, A9, A10, A11, A12, A13⟩, ?_⟩
  -- the measure decreases
  show 2 * unvisitedCount data P.visited + (rest ++ P.pend).length
      < 2 * unvisitedCount data s.visited + s.queue.length
  have hdec := unvisited_decrease data s.visited nw hnwnodup
    (fun r hr => ⟨(hnwP r hr).1, (hnwP r hr).2.1⟩)
  rw [hv, hpend, hq]
  simp only [List.length_append, List.length_map, List.length_cons]
  omega

theorem loopA_inv (data : EtymologyData) (nroot : String) (maxD : Nat) :
    ∀ fuel s, InvA data nroot maxD s → measureA data s ≤ fuel →
      InvA data nroot maxD (loopA data maxD fuel s) ∧ (loopA data maxD fuel s).queue = [] := by
  intro fuel
  induction fuel with
  | zero =>
      intro s hinv hm
      have hq : s.queue = [] := by
        have : s.queue.length = 0 := by
          rw [measureA] at hm
          omega
        exact List.length_eq_zero.mp this
      exact ⟨hinv, hq⟩
  | succ fuel ih =>
      intro s hinv hm
      cases hq : s.queue with
      | nil =>
          rw [show loopA data maxD (fuel + 1) s = s by rw [loopA, hq]]
          exact ⟨hinv, hq⟩
      | cons qi rest =>
          rw [show loopA data maxD (fuel + 1) s
              = loopA data maxD fuel (stepA data maxD qi.word qi.depth rest s) by
            rw [loopA, hq]]
          obtain ⟨hinv2, hlt⟩ := stepA_inv data nroot maxD s qi rest hq hinv
          exact ih _ hinv2 (by omega)

theorem initA_inv (data : EtymologyData) (nroot : String) (maxD : Nat)
    (e : WordEntry) (he : lookupStr data nroot = some e) :
    InvA data nroot maxD (initA nroot) := by
  refine ⟨?_, ?_, ?_, ?_, ?_, ?_, ?_, ?_, ?_, ?_, ?_, ?_, ?_⟩
  · intro qi hqi
    rw [List.mem_singleton.mp hqi, he]
    rfl
  · exact List.nodup_nil
  · exact List.nodup_singleton _
  · intro w hw
    exact List.not_mem_nil w
  · intro w
    show w ∈ [nroot] ↔ (w ∈ ([] : List GraphNode).map GraphNode.id
      ∨ w ∈ [(⟨nroot, 0⟩ : QItem)].map QItem.word)
    simp
  · intro n hn
    exact absurd hn (List.not_mem_nil n)
  · intro qi hqi
    rw [List.mem_singleton.mp hqi]
    exact minDepth_root data nroot
  · intro n hn
    exact absurd hn (List.not_mem_nil n)
  · exact List.mem_singleton.mpr rfl
  · show (if nroot = nroot then some 0 else lookupStr [] nroot) = some 0
    rw [if_pos rfl]
  · exact List.Pairwise.nil
  · intro e2 he2
    exact absurd he2 (List.not_mem_nil e2)
  · refine ⟨0, [⟨nroot, 0⟩], [], rfl, ?_, by simp, Nat.zero_le _, by simp, by simp, ?_⟩
    · intro qi hqi
      rw [List.mem_singleton.mp hqi]
    · intro x hx
      have : x = nroot := List.mem_singleton.mp hx
      rw [this]
      exact List.mem_singleton.mpr rfl

theorem measureA_init_le (data : EtymologyData) (nroot : String) :
    measureA data (initA nroot) ≤ fuelA data := by
  rw [measureA, fuelA]
  have h1 : unvisitedCount data (initA nroot).visited ≤ (keysDedup data).length :=
    List.length_filter_le _ _
  have h2 : (initA nroot).queue.length = 1 := rfl
  omega

/-- Final-state facts of the `MemStorage.getWordGraph` BFS: the invariant
holds and the queue is drained. -/
theorem bfsMem_final (data : EtymologyData) (nroot : String) (maxD : Nat)
    (e : WordEntry) (he : lookupStr data nroot = some e) :
    InvA data nroot maxD (bfsMem data nroot maxD) ∧ (bfsMem data nroot maxD).queue = [] :=
  loopA_inv data nroot maxD (fuelA data) (initA nroot)
    (initA_inv data nroot maxD e he) (measureA_init_le data nroot)

/-- Every word within `maxD` hops is visited in the final state. -/
theorem bfsMem_complete (data : EtymologyData) (nroot : String) (maxD : Nat)
    (s : AState) (hinv : InvA data nroot maxD s) (hq : s.queue = []) :
    ∀ j, j ≤ maxD → ∀ x ∈ reachList data nroot j, x ∈ s.nodes.map GraphNode.id := by
  have hvis : ∀ x, x ∈ s.visited → x ∈ s.nodes.map GraphNode.id := by
    intro x hx
    rcases (hinv.visEq x).mp hx with h | h
    · exact h
    · rw [hq] at h
      exact absurd h (List.not_mem_nil x)
  intro j
  induction j with
  | zero =>
      intro _ x hx
      rw [List.mem_singleton.mp hx]
      exact hvis nroot hinv.rootVis
  | succ j ih =>
      intro hj x hx
      rcases (reach_succ_mem data nroot x j).mp hx with h | ⟨u, huR, huadj⟩
      · exact ih (by omega) x h
      · have huid := ih (by omega) u huR
        obtain ⟨n, hnmem, hnid⟩ := List.mem_map.mp huid
        obtain ⟨mu, hmule, hmu⟩ := minDepth_exists data nroot j u huR
        have hnd : n.depth = mu := by
          apply minDepth_unique data nroot _ hmu
          rw [← hnid]
          exact (hinv.ndepth n hnmem).1
        apply hvis
        apply hinv.procd n hnmem x (by rw [hnid]; exact huadj)
        omega

/-! ## Variant-B BFS lemmas (claims C1, C4, C8) -/

theorem procRelB_spec (data : EtymologyData) (maxD : Nat) (cw : String) (cd : Nat)
    (visited : List String) : ∀ (rs : List String) (es : List GraphEdge) (qs : List QItem),
    (procRelB data maxD cw cd visited rs es qs).1
      = es ++ rs.filterMap (fun rw =>
          if normalizeWord rw ∉ visited ∧ (lookupStr data (normalizeWord rw)).isSome
          then some ⟨cw, normalizeWord rw⟩ else none) ∧
    (procRelB data maxD cw cd visited rs es qs).2
      = qs ++ (if cd < maxD then rs.filterMap (fun rw =>
          if normalizeWord rw ∉ visited ∧ (lookupStr data (normalizeWord rw)).isSome
          then some (⟨normalizeWord rw, cd + 1⟩ : QItem) else none) else []) := by
  intro rs
  induction rs with
  | nil =>
      intro es qs
      constructor
      · simp [procRelB]
      · by_cases hd : cd < maxD
        · simp [procRelB, hd]
        · simp [procRelB, hd]
  | cons rw0 rest ih =>
      intro es qs
      by_cases hc : normalizeWord rw0 ∉ visited ∧ (lookupStr data (normalizeWord rw0)).isSome
      · have hred : procRelB data maxD cw cd visited (rw0 :: rest) es qs
            = procRelB data maxD cw cd visited rest (es ++ [⟨cw, normalizeWord rw0⟩])
                (if cd < maxD then qs ++ [⟨normalizeWord rw0, cd + 1⟩] else qs) := by
          simp only [procRelB]
          rw [if_pos hc]
        obtain ⟨h1, h2⟩ := ih (es ++ [⟨cw, normalizeWord rw0⟩])
          (if cd < maxD then qs ++ [⟨normalizeWord rw0, cd + 1⟩] else qs)
        constructor
        · rw [hred, h1, List.filterMap_cons_some (by rw [if_pos hc]),
            List.append_assoc]
          rfl
        · rw [hred, h2]
          by_cases hd : cd < maxD
          · rw [if_pos hd, if_pos hd, if_pos hd,
              List.filterMap_cons_some (by rw [if_pos hc]), List.append_assoc]
            rfl
          · rw [if_neg hd, if_neg hd, if_neg hd]
      · have hred : procRelB data maxD cw cd visited (rw0 :: rest) es qs
            = procRelB data maxD cw cd visited rest es qs := by
          simp only [procRelB]
          rw [if_neg hc]
        obtain ⟨h1, h2⟩ := ih es qs
        constructor
        · rw [hred, h1, List.filterMap_cons_none (by rw [if_neg hc])]
        · rw [hred, h2]
          by_cases hd : cd < maxD
          · rw [if_pos hd, if_pos hd,
              List.filterMap_cons_none (by rw [if_neg hc])]
          · rw [if_neg hd, if_neg hd]

theorem stepB_skip (data : EtymologyData) (maxD : Nat) (w : String) (dw : Nat)
    (rest : List QItem) (s : BState) (hskip : w ∈ s.visited ∨ maxD < dw) :
    stepB data maxD w dw rest s = { s with queue := rest } := by
  rw [stepB, if_pos hskip]

theorem stepB_emit (data : EtymologyData) (maxD : Nat) (w : String) (dw : Nat)
    (rest : List QItem) (s : BState) (e : WordEntry)
    (hw : ¬ (w ∈ s.visited ∨ maxD < dw)) (he : lookupStr data w = some e) :
    stepB data maxD w dw rest s
      = ⟨rest ++ (procRelB data maxD w dw (s.visited ++ [w]) e.relatedWords s.edges []).2,
          s.visited ++ [w],
          s.nodes ++ [⟨w, w, e.definition, dw, e.relatedWords⟩],
          (procRelB data maxD w dw (s.visited ++ [w]) e.relatedWords s.edges []).1⟩ := by
  rw [stepB, if_neg hw]
  simp only [he]

theorem maxRelated_bound (data : EtymologyData) : ∀ (w : String) (e : WordEntry),
    lookupStr data w = some e → e.relatedWords.length ≤ maxRelated data := by
  induction data with
  | nil => intro w e he; exact absurd he (by simp [lookupStr])
  | cons kv rest ih =>
      intro w e he
      obtain ⟨k2, v2⟩ := kv
      show e.relatedWords.length ≤ max v2.relatedWords.length (maxRelated rest)
      by_cases hk : k2 = w
      · have h2 : some v2 = some e := by
          rw [← he]
          show some v2 = if k2 = w then some v2 else lookupStr rest w
          rw [if_pos hk]
        have hv : v2 = e := by injection h2
        rw [← hv]
        exact le_max_left _ _
      · have he2 : lookupStr rest w = some e := by
          rw [← he]
          show lookupStr rest w = if k2 = w then some v2 else lookupStr rest w
          rw [if_neg hk]
        exact le_trans (ih w e he2) (le_max_right _ _)

/-- Level-transition argument for the variant-B BFS: when the dequeued item
is the last one of the current BFS level, every word whose minimum depth is
below the next level is visited once the dequeued word is marked. -/
theorem levelB_transition (data : EtymologyData) (nroot : String) (maxD : Nat)
    (s : BState) (qi : QItem) (rest : List QItem) (k : Nat)
    (hvisList : s.visited = s.nodes.map GraphNode.id)
    (hnd : ∀ n ∈ s.nodes, minDepthIs data nroot n.id n.depth)
    (hpend : ∀ n ∈ s.nodes, ∀ r ∈ adjList data n.id, n.depth + 1 ≤ maxD →
      r ∈ s.visited ∨ (⟨r, n.depth + 1⟩ : QItem) ∈ s.queue)
    (hrootq : nroot ∈ s.visited ∨ (⟨nroot, 0⟩ : QItem) ∈ s.queue)
    (hq : s.queue = qi :: rest)
    (hrestdeep : ∀ qi2 ∈ rest, qi2.depth = k + 1)
    (hmink : ∀ w m, minDepthIs data nroot w m → m < k → w ∈ s.visited)
    (hkmax : k ≤ maxD) :
    ∀ w m, minDepthIs data nroot w m → m < k + 1 → w ∈ s.visited ++ [qi.word] := by
  intro w m hm hmlt
  by_cases hmk : m < k
  · exact List.mem_append.mpr (Or.inl (hmink w m hm hmk))
  · have hmeq : m = k := by omega
    cases hm0 : m with
    | zero =>
        rw [hm0] at hm
        have hwroot : w = nroot := minDepth_zero data nroot hm
        rw [hwroot]
        rcases hrootq with h | h
        · exact List.mem_append.mpr (Or.inl h)
        · rw [hq] at h
          rcases List.mem_cons.mp h with h2 | h2
          · have : nroot = qi.word := by rw [← h2]
            rw [this]
            exact List.mem_append.mpr (Or.inr (List.mem_singleton.mpr rfl))
          · have hd := hrestdeep _ h2
            have : (⟨nroot, 0⟩ : QItem).depth = 0 := rfl
            omega
    | succ m2 =>
        rw [hm0] at hm
        obtain ⟨u, huR, huadj⟩ := minDepth_pred data nroot hm
        obtain ⟨mu, hmule, hmu⟩ := minDepth_exists data nroot m2 u huR
        have huvis : u ∈ s.visited := hmink u mu hmu (by omega)
        rw [hvisList] at huvis
        obtain ⟨n, hnmem, hnid⟩ := List.mem_map.mp huvis
        have hndu : n.depth = mu := by
          apply minDepth_unique data nroot _ hmu
          rw [← hnid]
          exact hnd n hnmem
        rcases hpend n hnmem w (by rw [hnid]; exact huadj) (by omega) with h | h
        · exact List.mem_append.mpr (Or.inl h)
        · rw [hq] at h
          rcases List.mem_cons.mp h with h2 | h2
          · have : w = qi.word := by rw [← h2]
            rw [this]
            exact List.mem_append.mpr (Or.inr (List.mem_singleton.mpr rfl))
          · have hd := hrestdeep _ h2
            have : (⟨w, n.depth + 1⟩ : QItem).depth = n.depth + 1 := rfl
            omega

/-- Invariant of the lambda/server `getWordGraph` BFS loop (variant B,
visited marked at dequeue time), for root `nroot` present in the index. -/
structure InvB (data : EtymologyData) (nroot : String) (maxD : Nat) (s : BState) : Prop where
  qkeys : ∀ qi ∈ s.queue, (lookupStr data qi.word).isSome
  visList : s.visited = s.nodes.map GraphNode.id
  idsNodup : (s.nodes.map GraphNode.id).Nodup
  ndepth : ∀ n ∈ s.nodes, minDepthIs data nroot n.id n.depth ∧ n.depth ≤ maxD
  qreach : ∀ qi ∈ s.queue, qi.word ∈ reachList data nroot qi.depth
  pend : ∀ n ∈ s.nodes, ∀ r ∈ adjList data n.id, n.depth + 1 ≤ maxD →
    r ∈ s.visited ∨ (⟨r, n.depth + 1⟩ : QItem) ∈ s.queue
  rootq : nroot ∈ s.visited ∨ (⟨nroot, 0⟩ : QItem) ∈ s.queue
  qsplit : ∃ k qa qb, s.queue = qa ++ qb ∧ (∀ qi ∈ qa, qi.depth = k)
    ∧ (∀ qi ∈ qb, qi.depth = k + 1) ∧ k ≤ maxD ∧ (qb ≠ [] → k + 1 ≤ maxD)
    ∧ (qa = [] → qb = [])
    ∧ (∀ w m, minDepthIs data nroot w m → m < k → w ∈ s.visited)

/-- One step of the variant-B BFS preserves the invariant and decreases
the termination measure. -/
theorem stepB_inv (data : EtymologyData) (nroot : String) (maxD : Nat)
    (s : BState) (qi : QItem) (rest : List QItem)
    (hq : s.queue = qi :: rest) (hinv : InvB data nroot maxD s) :
    InvB data nroot maxD (stepB data maxD qi.word qi.depth rest s) ∧
    measureB data (stepB data maxD qi.word qi.depth rest s) < measureB data s := by
  obtain ⟨k, qa, qb, hsp, hka, hkb, hkmax, hkbmax, hae, hmink⟩ := hinv.qsplit
  have hms : measureB data s
      = (maxRelated data + 1) * unvisitedCount data s.visited + (rest.length + 1) := by
    rw [measureB, hq]
    simp [List.length_cons]
  cases qa with
  | nil =>
      rw [hae rfl] at hsp
      rw [hq] at hsp
      exact absurd hsp (by simp)
  | cons qa0 qa' =>
  rw [hq] at hsp
  have hinj : qi = qa0 ∧ rest = qa' ++ qb := by
    have h2 : qi :: rest = qa0 :: (qa' ++ qb) := hsp
    exact ⟨by injection h2, by injection h2⟩
  have hrest : rest = qa' ++ qb := hinj.2
  have hkqi : qi.depth = k := by
    rw [hinj.1]
    exact hka qa0 (List.mem_cons_self _ _)
  have hqik : (lookupStr data qi.word).isSome :=
    hinv.qkeys qi (by rw [hq]; exact List.mem_cons_self _ _)
  obtain ⟨e, he⟩ := Option.isSome_iff_exists.mp hqik
  have hqiR : qi.word ∈ reachList data nroot qi.depth :=
    hinv.qreach qi (by rw [hq]; exact List.mem_cons_self _ _)
  have hdep : ¬ maxD < qi.depth := by omega
  by_cases hvis : qi.word ∈ s.visited
  · -- skip: the dequeued word was already emitted
    rw [stepB_skip data maxD qi.word qi.depth rest s (Or.inl hvis)]
    have B7 : nroot ∈ s.visited ∨ (⟨nroot, 0⟩ : QItem) ∈ rest := by
      rcases hinv.rootq with h | h
      · exact Or.inl h
      · rw [hq] at h
        rcases List.mem_cons.mp h with h2 | h2
        · rw [show qi = (⟨nroot, 0⟩ : QItem) from h2.symm] at hvis
          exact Or.inl hvis
        · exact Or.inr h2
    have B6 : ∀ n ∈ s.nodes, ∀ r ∈ adjList data n.id, n.depth + 1 ≤ maxD →
        r ∈ s.visited ∨ (⟨r, n.depth + 1⟩ : QItem) ∈ rest := by
      intro n hn r hr hd2
      rcases hinv.pend n hn r hr hd2 with h | h
      · exact Or.inl h
      · rw [hq] at h
        rcases List.mem_cons.mp h with h2 | h2
        · have hrq : r = qi.word := by rw [← h2]
          rw [hrq]
          exact Or.inl hvis
        · exact Or.inr h2
    have B8 : ∃ k2 qa2 qb2, rest = qa2 ++ qb2 ∧ (∀ qi2 ∈ qa2, qi2.depth = k2)
        ∧ (∀ qi2 ∈ qb2, qi2.depth = k2 + 1) ∧ k2 ≤ maxD ∧ (qb2 ≠ [] → k2 + 1 ≤ maxD)
        ∧ (qa2 = [] → qb2 = [])
        ∧ (∀ w m, minDepthIs data nroot w m → m < k2 → w ∈ s.visited) := by
      cases hqa' : qa' with
      | cons x xs =>
          refine ⟨k, qa', qb, hrest, ?_, hkb, hkmax, hkbmax, ?_, hmink⟩
          · intro qi2 hqi2
            exact hka qi2 (List.mem_cons_of_mem _ hqi2)
          · intro h; rw [hqa'] at h; exact absurd h (by simp)
      | nil =>
          rw [hqa', List.nil_append] at hrest
          cases hqb : qb with
          | nil =>
              refine ⟨k, [], [], by simp [hrest, hqb], by simp, by simp, hkmax, by simp,
                fun _ => rfl, hmink⟩
          | cons b bs =>
              have hk1 : k + 1 ≤ maxD := hkbmax (by rw [hqb]; simp)
              have hlev := levelB_transition data nroot maxD s qi rest k
                hinv.visList (fun n hn => (hinv.ndepth n hn).1) hinv.pend hinv.rootq hq
                (fun qi2 h2 => hkb qi2 (by rw [← hrest]; exact h2)) hmink hkmax
              refine ⟨k + 1, qb, [], by rw [hrest, List.append_nil], hkb, by simp, hk1,
                by simp, fun _ => rfl, ?_⟩
              intro w m hm hmlt
              rcases List.mem_append.mp (hlev w m hm hmlt) with h | h
              · exact h
              · rw [List.mem_singleton.mp h]
                exact hvis
    refine ⟨⟨?_, hinv.visList, hinv.idsNodup, hinv.ndepth, ?_, B6, B7, B8⟩, ?_⟩
    · intro qi2 hqi2
      exact hinv.qkeys qi2 (by rw [hq]; exact List.mem_cons_of_mem _ hqi2)
    · intro qi2 hqi2
      exact hinv.qreach qi2 (by rw [hq]; exact List.mem_cons_of_mem _ hqi2)
    · show (maxRelated data + 1) * unvisitedCount data s.visited + rest.length
        < measureB data s
      rw [hms]
      omega
  · -- emit: mark visited, push the node, process the related words
    have hnx : ¬ (qi.word ∈ s.visited ∨ maxD < qi.depth) := by
      intro h
      rcases h with h | h
      · exact hvis h
      · exact hdep h
    rw [stepB_emit data maxD qi.word qi.depth rest s e hnx he]
    obtain ⟨hE, hQ⟩ := procRelB_spec data maxD qi.word qi.depth (s.visited ++ [qi.word])
      e.relatedWords s.edges []
    rw [List.nil_append] at hQ
    have hminqi : minDepthIs data nroot qi.word qi.depth := by
      obtain ⟨m, hmle, hm⟩ := minDepth_exists data nroot qi.depth qi.word hqiR
      have hnk : ¬ m < k := by
        intro hlt
        exact hvis (hmink qi.word m hm hlt)
      have hmk : m = qi.depth := by omega
      rw [← hmk]
      exact hm
    have hnewQ : ∀ qi2 ∈ (procRelB data maxD qi.word qi.depth (s.visited ++ [qi.word])
        e.relatedWords s.edges []).2,
        qi2.depth = qi.depth + 1 ∧ qi2.word ∉ s.visited ++ [qi.word]
          ∧ (lookupStr data qi2.word).isSome
          ∧ qi2.word ∈ adjList data qi.word ∧ qi.depth < maxD := by
      intro qi2 hqi2
      rw [hQ] at hqi2
      by_cases hd : qi.depth < maxD
      · rw [if_pos hd] at hqi2
        obtain ⟨rw2, hrw2, hif⟩ := List.mem_filterMap.mp hqi2
        by_cases hc : normalizeWord rw2 ∉ s.visited ++ [qi.word]
            ∧ (lookupStr data (normalizeWord rw2)).isSome
        · rw [if_pos hc] at hif
          have h3 : (⟨normalizeWord rw2, qi.depth + 1⟩ : QItem) = qi2 := by injection hif
          have hqi2w : qi2.word = normalizeWord rw2 := by rw [← h3]
          have hqi2d : qi2.depth = qi.depth + 1 := by rw [← h3]
          refine ⟨hqi2d, by rw [hqi2w]; exact hc.1, by rw [hqi2w]; exact hc.2, ?_, hd⟩
          rw [hqi2w]
          exact (adjList_mem_iff data qi.word e he _).mpr ⟨hc.2, rw2, hrw2, rfl⟩
        · rw [if_neg hc] at hif
          exact absurd hif (by simp)
      · rw [if_neg hd] at hqi2
        exact absurd hqi2 (List.not_mem_nil _)
    have hnewQd : ∀ qi2 ∈ (procRelB data maxD qi.word qi.depth
        (s.visited ++ [qi.word]) e.relatedWords s.edges []).2, qi2.depth = k + 1 := by
      intro qi2 hqi2
      rw [← hkqi]
      exact (hnewQ qi2 hqi2).1
    have hnewnonempty : (procRelB data maxD qi.word qi.depth (s.visited ++ [qi.word])
        e.relatedWords s.edges []).2 ≠ [] → k + 1 ≤ maxD := by
      intro hne
      cases hp : (procRelB data maxD qi.word qi.depth (s.visited ++ [qi.word])
          e.relatedWords s.edges []).2 with
      | nil => exact absurd hp hne
      | cons p ps =>
          have hlt := (hnewQ p (by rw [hp]; exact List.mem_cons_self _ _)).2.2.2.2
          omega
    have B1 : ∀ qi2 ∈ rest ++ (procRelB data maxD qi.word qi.depth
        (s.visited ++ [qi.word]) e.relatedWords s.edges []).2,
        (lookupStr data qi2.word).isSome := by
      intro qi2 hqi2
      rcases List.mem_append.mp hqi2 with h | h
      · exact hinv.qkeys qi2 (by rw [hq]; exact List.mem_cons_of_mem _ h)
      · exact (hnewQ qi2 h).2.2.1
    have B2 : s.visited ++ [qi.word]
        = (s.nodes ++ [(⟨qi.word, qi.word, e.definition, qi.depth,
            e.relatedWords⟩ : GraphNode)]).map GraphNode.id := by
      rw [List.map_append, hinv.visList]
      rfl
    have B3 : ((s.nodes ++ [(⟨qi.word, qi.word, e.definition, qi.depth,
        e.relatedWords⟩ : GraphNode)]).map GraphNode.id).Nodup := by
      rw [List.map_append]
      refine hinv.idsNodup.append (List.nodup_singleton _) ?_
      intro a ha hb
      have hab : a = qi.word := List.mem_singleton.mp hb
      apply hvis
      rw [hinv.visList, ← hab]
      exact ha
    have B4 : ∀ n ∈ s.nodes ++ [(⟨qi.word, qi.word, e.definition, qi.depth,
        e.relatedWords⟩ : GraphNode)],
        minDepthIs data nroot n.id n.depth ∧ n.depth ≤ maxD := by
      intro n hn
      rcases List.mem_append.mp hn with h | h
      · exact hinv.ndepth n h
      · rw [List.mem_singleton.mp h]
        refine ⟨hminqi, ?_⟩
        show qi.depth ≤ maxD
        omega
    have B5 : ∀ qi2 ∈ rest ++ (procRelB data maxD qi.word qi.depth
        (s.visited ++ [qi.word]) e.relatedWords s.edges []).2,
        qi2.word ∈ reachList data nroot qi2.depth := by
      intro qi2 hqi2
      rcases List.mem_append.mp hqi2 with h | h
      · exact hinv.qreach qi2 (by rw [hq]; exact List.mem_cons_of_mem _ h)
      · obtain ⟨hd2, _, _, hadj, _⟩ := hnewQ qi2 h
        rw [hd2]
        exact reach_step data nroot hqiR hadj
    have B6 : ∀ n ∈ s.nodes ++ [(⟨qi.word, qi.word, e.definition, qi.depth,
        e.relatedWords⟩ : GraphNode)],
        ∀ r ∈ adjList data n.id, n.depth + 1 ≤ maxD →
        r ∈ s.visited ++ [qi.word]
          ∨ (⟨r, n.depth + 1⟩ : QItem) ∈ rest ++ (procRelB data maxD qi.word qi.depth
              (s.visited ++ [qi.word]) e.relatedWords s.edges []).2 := by
      intro n hn r hr hd2
      rcases List.mem_append.mp hn with h | h
      · rcases hinv.pend n h r hr hd2 with h2 | h2
        · exact Or.inl (List.mem_append.mpr (Or.inl h2))
        · rw [hq] at h2
          rcases List.mem_cons.mp h2 with h3 | h3
          · have hrq : r = qi.word := by rw [← h3]
            rw [hrq]
            exact Or.inl (List.mem_append.mpr (Or.inr (List.mem_singleton.mpr rfl)))
          · exact Or.inr (List.mem_append.mpr (Or.inl h3))
      · have hdn : n.depth = qi.depth := by rw [List.mem_singleton.mp h]
        rw [List.mem_singleton.mp h] at hr
        rw [hdn] at hd2 ⊢
        obtain ⟨hsome2, rw2, hrw2, hn2⟩ := (adjList_mem_iff data qi.word e he r).mp hr
        by_cases hrv : r ∈ s.visited ++ [qi.word]
        · exact Or.inl hrv
        · refine Or.inr (List.mem_append.mpr (Or.inr ?_))
          rw [hQ, if_pos (by omega)]
          apply List.mem_filterMap.mpr
          refine ⟨rw2, hrw2, ?_⟩
          rw [if_pos (by rw [hn2]; exact ⟨hrv, hsome2⟩), hn2]
    have B7 : nroot ∈ s.visited ++ [qi.word]
        ∨ (⟨nroot, 0⟩ : QItem) ∈ rest ++ (procRelB data maxD qi.word qi.depth
            (s.visited ++ [qi.word]) e.relatedWords s.edges []).2 := by
      rcases hinv.rootq with h | h
      · exact Or.inl (List.mem_append.mpr (Or.inl h))
      · rw [hq] at h
        rcases List.mem_cons.mp h with h2 | h2
        · have hnr : nroot = qi.word := by rw [← h2]
          rw [hnr]
          exact Or.inl (List.mem_append.mpr (Or.inr (List.mem_singleton.mpr rfl)))
        · exact Or.inr (List.mem_append.mpr (Or.inl h2))
    have B8 : ∃ k2 qa2 qb2,
        rest ++ (procRelB data maxD qi.word qi.depth (s.visited ++ [qi.word])
          e.relatedWords s.edges []).2 = qa2 ++ qb2
        ∧ (∀ qi2 ∈ qa2, qi2.depth = k2)
        ∧ (∀ qi2 ∈ qb2, qi2.depth = k2 + 1) ∧ k2 ≤ maxD ∧ (qb2 ≠ [] → k2 + 1 ≤ maxD)
        ∧ (qa2 = [] → qb2 = [])
        ∧ (∀ w m, minDepthIs data nroot w m → m < k2 → w ∈ s.visited ++ [qi.word]) := by
      have hminkW : ∀ w m, minDepthIs data nroot w m → m < k → w ∈ s.visited ++ [qi.word] :=
        fun w m hm hlt => List.mem_append.mpr (Or.inl (hmink w m hm hlt))
      cases hqa' : qa' with
      | cons x xs =>
          refine ⟨k, qa', qb ++ (procRelB data maxD qi.word qi.depth (s.visited ++ [qi.word])
            e.relatedWords s.edges []).2, ?_, ?_, ?_, hkmax, ?_, ?_, hminkW⟩
          · rw [hrest, List.append_assoc]
          · intro qi2 hqi2
            exact hka qi2 (List.mem_cons_of_mem _ hqi2)
          · intro qi2 hqi2
            rcases List.mem_append.mp hqi2 with h | h
            · exact hkb qi2 h
            · exact hnewQd qi2 h
          · intro hne
            cases hqb : qb with
            | cons b bs => exact hkbmax (by rw [hqb]; simp)
            | nil =>
                apply hnewnonempty
                intro hnil
                rw [hqb, hnil] at hne
                exact hne rfl
          · intro h; rw [hqa'] at h; exact absurd h (by simp)
      | nil =>
          rw [hqa', List.nil_append] at hrest
          have hlev := levelB_transition data nroot maxD s qi rest k
            hinv.visList (fun n hn => (hinv.ndepth n hn).1) hinv.pend hinv.rootq hq
            (fun qi2 h2 => hkb qi2 (by rw [← hrest]; exact h2)) hmink hkmax
          by_cases hq2 : qb ++ (procRelB data maxD qi.word qi.depth (s.visited ++ [qi.word])
              e.relatedWords s.edges []).2 = []
          · refine ⟨k, [], [], ?_, by simp, by simp, hkmax, by simp, fun _ => rfl, hminkW⟩
            rw [hrest]
            simpa using hq2
          · have hk1 : k + 1 ≤ maxD := by
              cases hqb : qb with
              | cons b bs => exact hkbmax (by rw [hqb]; simp)
              | nil =>
                  apply hnewnonempty
                  intro hnil
                  apply hq2
                  rw [hqb, hnil]
                  rfl
            refine ⟨k + 1, qb ++ (procRelB data maxD qi.word qi.depth
                (s.visited ++ [qi.word]) e.relatedWords s.edges []).2, [],
              by rw [hrest, List.append_nil], ?_, by simp, hk1, by simp, ?_, hlev⟩
            · intro qi2 hqi2
              rcases List.mem_append.mp hqi2 with h | h
              · exact hkb qi2 h
              · exact hnewQd qi2 h
            · intro h
              exact absurd h hq2
    refine ⟨⟨B1, B2, B3, B4, B5, B6, B7, B8⟩, ?_⟩
    show (maxRelated data + 1) * unvisitedCount data (s.visited ++ [qi.word])
        + (rest ++ (procRelB data maxD qi.word qi.depth (s.visited ++ [qi.word])
            e.relatedWords s.edges []).2).length
      < measureB data s
    rw [hms, List.length_append]
    have h1 := unvisited_decrease data s.visited [qi.word] (List.nodup_singleton _)
      (fun r hr => by rw [List.mem_singleton.mp hr]; exact ⟨hvis, hqik⟩)
    rw [List.length_singleton] at h1
    have h2 : (procRelB data maxD qi.word qi.depth (s.visited ++ [qi.word])
        e.relatedWords s.edges []).2.length ≤ maxRelated data := by
      rw [hQ]
      by_cases hd : qi.depth < maxD
      · rw [if_pos hd]
        exact le_trans (List.length_filterMap_le _ _) (maxRelated_bound data qi.word e he)
      · rw [if_neg hd]
        exact Nat.zero_le _
    have hmul : (maxRelated data + 1) * unvisitedCount data (s.visited ++ [qi.word])
        + (maxRelated data + 1)
        ≤ (maxRelated data + 1) * unvisitedCount data s.visited := by
      have h3 := Nat.mul_le_mul_left (maxRelated data + 1) h1
      calc (maxRelated data + 1) * unvisitedCount data (s.visited ++ [qi.word])
            + (maxRelated data + 1)
          = (maxRelated data + 1) * (unvisitedCount data (s.visited ++ [qi.word]) + 1) := by
            ring
        _ ≤ (maxRelated data + 1) * unvisitedCount data s.visited := h3
    omega

theorem loopB_inv (data : EtymologyData) (nroot : String) (maxD : Nat) :
    ∀ fuel s, InvB data nroot maxD s → measureB data s ≤ fuel →
      InvB data nroot maxD (loopB data maxD fuel s) ∧ (loopB data maxD fuel s).queue = [] := by
  intro fuel
  induction fuel with
  | zero =>
      intro s hinv hm
      have hq : s.queue = [] := by
        have hlen : s.queue.length = 0 := by
          rw [measureB] at hm
          omega
        exact List.length_eq_zero.mp hlen
      exact ⟨hinv, hq⟩
  | succ fuel ih =>
      intro s hinv hm
      cases hq : s.queue with
      | nil =>
          rw [show loopB data maxD (fuel + 1) s = s by rw [loopB, hq]]
          exact ⟨hinv, hq⟩
      | cons qi rest =>
          rw [show loopB data maxD (fuel + 1) s
              = loopB data maxD fuel (stepB data maxD qi.word qi.depth rest s) by
            rw [loopB, hq]]
          obtain ⟨hinv2, hlt⟩ := stepB_inv data nroot maxD s qi rest hq hinv
          exact ih _ hinv2 (by omega)

theorem initB_inv (data : EtymologyData) (nroot : String) (maxD : Nat)
    (e : WordEntry) (he : lookupStr data nroot = some e) :
    InvB data nroot maxD ⟨[⟨nroot, 0⟩], [], [], []⟩ := by
  refine ⟨?_, rfl, List.nodup_nil, ?_, ?_, ?_, ?_, ?_⟩
  · intro qi hqi
    rw [List.mem_singleton.mp hqi, he]
    rfl
  · intro n hn
    exact absurd hn (List.not_mem_nil n)
  · intro qi hqi
    rw [List.mem_singleton.mp hqi]
    exact root_mem_reach data nroot 0
  · intro n hn
    exact absurd hn (List.not_mem_nil n)
  · exact Or.inr (List.mem_singleton.mpr rfl)
  · refine ⟨0, [⟨nroot, 0⟩], [], rfl, ?_, by simp, Nat.zero_le _, by simp, by simp, ?_⟩
    · intro qi hqi
      rw [List.mem_singleton.mp hqi]
    · intro w m hm hmlt
      omega

theorem measureB_init_le (data : EtymologyData) (nroot : String) :
    measureB data (⟨[⟨nroot, 0⟩], [], [], []⟩ : BState) ≤ fuelB data := by
  rw [measureB, fuelB]
  have h1 : unvisitedCount data (⟨[⟨nroot, 0⟩], [], [], []⟩ : BState).visited
      ≤ (keysDedup data).length := List.length_filter_le _ _
  have h2 : ((⟨[⟨nroot, 0⟩], [], [], []⟩ : BState).queue).length = 1 := rfl
  have h3 := Nat.mul_le_mul_left (maxRelated data + 1) h1
  omega

/-- Final-state facts of the lambda/server BFS: the invariant holds and
the queue is drained. -/
theorem bfsLam_final (data : EtymologyData) (nroot : String) (maxD : Nat)
    (e : WordEntry) (he : lookupStr data nroot = some e) :
    InvB data nroot maxD (bfsLam data nroot maxD) ∧ (bfsLam data nroot maxD).queue = [] :=
  loopB_inv data nroot maxD (fuelB data) ⟨[⟨nroot, 0⟩], [], [], []⟩
    (initB_inv data nroot maxD e he) (measureB_init_le data nroot)

/-- Every word within `maxD` hops is an emitted node id in the final state
of the variant-B BFS. -/
theorem bfsLam_complete (data : EtymologyData) (nroot : String) (maxD : Nat)
    (s : BState) (hinv : InvB data nroot maxD s) (hq : s.queue = []) :
    ∀ j, j ≤ maxD → ∀ x ∈ reachList data nroot j, x ∈ s.nodes.map GraphNode.id := by
  have hvis : ∀ x, x ∈ s.visited → x ∈ s.nodes.map GraphNode.id := by
    intro x hx
    rw [hinv.visList] at hx
    exact hx
  have hroot : nroot ∈ s.visited := by
    rcases hinv.rootq with h | h
    · exact h
    · rw [hq] at h
      exact absurd h (List.not_mem_nil _)
  intro j
  induction j with
  | zero =>
      intro _ x hx
      rw [List.mem_singleton.mp hx]
      exact hvis nroot hroot
  | succ j ih =>
      intro hj x hx
      rcases (reach_succ_mem data nroot x j).mp hx with h | ⟨u, huR, huadj⟩
      · exact ih (by omega) x h
      · have huid := ih (by omega) u huR
        obtain ⟨n, hnmem, hnid⟩ := List.mem_map.mp huid
        obtain ⟨mu, hmule, hmu⟩ := minDepth_exists data nroot j u huR
        have hnd : n.depth = mu := by
          apply minDepth_unique data nroot _ hmu
          rw [← hnid]
          exact (hinv.ndepth n hnmem).1
        rcases hinv.pend n hnmem x (by rw [hnid]; exact huadj) (by omega) with h | h
        · exact hvis x h
        · rw [hq] at h
          exact absurd h (List.not_mem_nil _)

theorem procRelC_spec (data : EtymologyData) (maxD : Nat) (cd : Nat)
    (visited : List String) : ∀ (rs : List String) (qs : List QItem),
    procRelC data maxD cd visited rs qs
      = qs ++ (if cd < maxD then rs.filterMap (fun rw =>
          if normalizeWord rw ∉ visited ∧ (lookupStr data (normalizeWord rw)).isSome
          then some (⟨normalizeWord rw, cd + 1⟩ : QItem) else none) else []) := by
  intro rs
  induction rs with
  | nil =>
      intro qs
      by_cases hd : cd < maxD
      · simp [procRelC, hd]
      · simp [procRelC, hd]
  | cons rw0 rest ih =>
      intro qs
      by_cases hd : cd < maxD
      · by_cases hc : normalizeWord rw0 ∉ visited ∧ (lookupStr data (normalizeWord rw0)).isSome
        · have hred : procRelC data maxD cd visited (rw0 :: rest) qs
              = procRelC data maxD cd visited rest (qs ++ [⟨normalizeWord rw0, cd + 1⟩]) := by
            simp only [procRelC]
            rw [if_pos ⟨hc.1, hc.2, hd⟩]
          rw [hred, ih, if_pos hd, if_pos hd,
            List.filterMap_cons_some (by rw [if_pos hc]), List.append_assoc]
          rfl
        · have hred : procRelC data maxD cd visited (rw0 :: rest) qs
              = procRelC data maxD cd visited rest qs := by
            simp only [procRelC]
            rw [if_neg (by intro h; exact hc ⟨h.1, h.2.1⟩)]
          rw [hred, ih, if_pos hd, if_pos hd,
            List.filterMap_cons_none (by rw [if_neg hc])]
      · have hred : procRelC data maxD cd visited (rw0 :: rest) qs
            = procRelC data maxD cd visited rest qs := by
          simp only [procRelC]
          rw [if_neg (by intro h; exact hd h.2.2)]
        rw [hred, ih, if_neg hd, if_neg hd]

/-- The counting BFS of the stats precomputer and the variant-B BFS evolve
the queue and visited set identically, step by step. -/
theorem stepCB_bisim (data : EtymologyData) (maxD : Nat) (w : String) (dw : Nat)
    (rest : List QItem) (q : List QItem) (v : List String)
    (ns : List GraphNode) (es : List GraphEdge) :
    (stepC data maxD w dw rest ⟨q, v⟩).queue
        = (stepB data maxD w dw rest ⟨q, v, ns, es⟩).queue
      ∧ (stepC data maxD w dw rest ⟨q, v⟩).visited
        = (stepB data maxD w dw rest ⟨q, v, ns, es⟩).visited := by
  by_cases hskip : w ∈ v ∨ maxD < dw
  · rw [show stepC data maxD w dw rest ⟨q, v⟩ = { (⟨q, v⟩ : CState) with queue := rest } by
      rw [stepC]; exact if_pos hskip]
    rw [stepB_skip data maxD w dw rest ⟨q, v, ns, es⟩ hskip]
    exact ⟨rfl, rfl⟩
  · cases he : lookupStr data w with
    | none =>
        have hc : stepC data maxD w dw rest ⟨q, v⟩ = ⟨rest, v ++ [w]⟩ := by
          rw [stepC, if_neg hskip]
          simp only [he]
        have hb : stepB data maxD w dw rest ⟨q, v, ns, es⟩
            = { (⟨q, v, ns, es⟩ : BState) with queue := rest, visited := v ++ [w] } := by
          rw [stepB, if_neg hskip]
          simp only [he]
        rw [hc, hb]
        exact ⟨rfl, rfl⟩
    | some e =>
        have hc : stepC data maxD w dw rest ⟨q, v⟩
            = ⟨rest ++ procRelC data maxD dw (v ++ [w]) e.relatedWords [], v ++ [w]⟩ := by
          rw [stepC, if_neg hskip]
          simp only [he]
        rw [hc, stepB_emit data maxD w dw rest ⟨q, v, ns, es⟩ e hskip he]
        obtain ⟨hE, hQ⟩ := procRelB_spec data maxD w dw (v ++ [w]) e.relatedWords es []
        rw [List.nil_append] at hQ
        constructor
        · show rest ++ procRelC data maxD dw (v ++ [w]) e.relatedWords [] = rest ++ _
          rw [procRelC_spec data maxD dw (v ++ [w]) e.relatedWords [], hQ, List.nil_append]
        · rfl

theorem loopCB_bisim (data : EtymologyData) (maxD : Nat) :
    ∀ (fuel : Nat) (q : List QItem) (v : List String)
      (ns : List GraphNode) (es : List GraphEdge),
    (loopC data maxD fuel ⟨q, v⟩).queue = (loopB data maxD fuel ⟨q, v, ns, es⟩).queue
      ∧ (loopC data maxD fuel ⟨q, v⟩).visited
        = (loopB data maxD fuel ⟨q, v, ns, es⟩).visited := by
  intro fuel
  induction fuel with
  | zero =>
      intro q v ns es
      exact ⟨rfl, rfl⟩
  | succ fuel ih =>
      intro q v ns es
      cases q with
      | nil =>
          rw [show loopC data maxD (fuel + 1) ⟨[], v⟩ = ⟨[], v⟩ by rw [loopC]]
          rw [show loopB data maxD (fuel + 1) ⟨[], v, ns, es⟩ = ⟨[], v, ns, es⟩ by rw [loopB]]
          exact ⟨rfl, rfl⟩
      | cons qi rest =>
          rw [show loopC data maxD (fuel + 1) ⟨qi :: rest, v⟩
              = loopC data maxD fuel (stepC data maxD qi.word qi.depth rest ⟨qi :: rest, v⟩) by
            rw [loopC]]
          rw [show loopB data maxD (fuel + 1) ⟨qi :: rest, v, ns, es⟩
              = loopB data maxD fuel
                  (stepB data maxD qi.word qi.depth rest ⟨qi :: rest, v, ns, es⟩) by
            rw [loopB]]
          obtain ⟨hq2, hv2⟩ := stepCB_bisim data maxD qi.word qi.depth rest
            (qi :: rest) v ns es
          have hc2 : stepC data maxD qi.word qi.depth rest ⟨qi :: rest, v⟩
              = ⟨(stepB data maxD qi.word qi.depth rest ⟨qi :: rest, v, ns, es⟩).queue,
                 (stepB data maxD qi.word qi.depth rest ⟨qi :: rest, v, ns, es⟩).visited⟩ := by
            cases hcc : stepC data maxD qi.word qi.depth rest ⟨qi :: rest, v⟩ with
            | mk cq cv =>
                rw [hcc] at hq2 hv2
                rw [← hq2, ← hv2]
          rw [hc2]
          obtain ⟨h1, h2⟩ := ih
            (stepB data maxD qi.word qi.depth rest ⟨qi :: rest, v, ns, es⟩).queue
            (stepB data maxD qi.word qi.depth rest ⟨qi :: rest, v, ns, es⟩).visited
            (stepB data maxD qi.word qi.depth rest ⟨qi :: rest, v, ns, es⟩).nodes
            (stepB data maxD qi.word qi.depth rest ⟨qi :: rest, v, ns, es⟩).edges
          refine ⟨?_, ?_⟩
          · rw [h1]
          · rw [h2]

theorem getWordGraphMem_none (data : EtymologyData) (word : String) (maxD : Nat)
    (he : lookupStr data (normalizeWord word) = none) :
    getWordGraphMem data word maxD = ([], []) := by
  simp only [getWordGraphMem, he]

theorem getWordGraphMem_some (data : EtymologyData) (word : String) (maxD : Nat)
    (e : WordEntry) (he : lookupStr data (normalizeWord word) = some e) :
    getWordGraphMem data word maxD
      = pruneGraph (bfsMem data (normalizeWord word) maxD).nodes
          (bfsMem data (normalizeWord word) maxD).edges
          (bfsMem data (normalizeWord word) maxD).dmap := by
  simp only [getWordGraphMem, he]

theorem getWordGraphSrv_none (data : EtymologyData) (word : String) (maxD : Nat)
    (he : lookupStr data (normalizeWord word) = none) :
    getWordGraphSrv data word maxD = ([], []) := by
  simp only [getWordGraphSrv, he]

theorem getWordGraphSrv_some (data : EtymologyData) (word : String) (maxD : Nat)
    (e : WordEntry) (he : lookupStr data (normalizeWord word) = some e) :
    getWordGraphSrv data word maxD
      = ((bfsLam data (normalizeWord word) maxD).nodes,
         (bfsLam data (normalizeWord word) maxD).edges) := by
  simp only [getWordGraphSrv, he]

theorem getWordGraphLam_none (data : EtymologyData) (word : String) (maxD : Nat)
    (he : lookupStr data (normalizeWord word) = none) :
    getWordGraphLam data word maxD = ([], []) := by
  simp only [getWordGraphLam, he]

theorem getWordGraphLam_some (data : EtymologyData) (word : String) (maxD : Nat)
    (e : WordEntry) (he : lookupStr data (normalizeWord word) = some e) :
    getWordGraphLam data word maxD
      = pruneGraph (bfsLam data (normalizeWord word) maxD).nodes
          (bfsLam data (normalizeWord word) maxD).edges
          (dmFromNodes (bfsLam data (normalizeWord word) maxD).nodes) := by
  simp only [getWordGraphLam, he]

theorem computeGraphSize_none (data : EtymologyData) (word : String) (maxD : Nat)
    (he : lookupStr data (normalizeWord word) = none) :
    computeGraphSize data word maxD = 0 := by
  simp only [computeGraphSize, he]

theorem computeGraphSize_some (data : EtymologyData) (word : String) (maxD : Nat)
    (e : WordEntry) (he : lookupStr data (normalizeWord word) = some e) :
    computeGraphSize data word maxD
      = (loopC data maxD (fuelB data) ⟨[⟨normalizeWord word, 0⟩], []⟩).visited.length := by
  simp only [computeGraphSize, he]

/-- C8: the stats precomputer's counting BFS agrees with the node count of
the server `getWordGraph` BFS (no pruning), and the count is zero exactly
when the normalized word is absent from the index. -/
theorem C8_graph_size_refinement (data : EtymologyData) (word : String) (maxD : Nat) :
    computeGraphSize data word maxD = (getWordGraphSrv data word maxD).1.length
    ∧ (computeGraphSize data word maxD = 0
        ↔ lookupStr data (normalizeWord word) = none) := by
  cases he : lookupStr data (normalizeWord word) with
  | none =>
      rw [computeGraphSize_none data word maxD he, getWordGraphSrv_none data word maxD he]
      exact ⟨rfl, by simp⟩
  | some e =>
      obtain ⟨hinv, hqe⟩ := bfsLam_final data (normalizeWord word) maxD e he
      have hbis := loopCB_bisim data maxD (fuelB data) [⟨normalizeWord word, 0⟩] [] [] []
      have hv : (loopC data maxD (fuelB data) ⟨[⟨normalizeWord word, 0⟩], []⟩).visited
          = (bfsLam data (normalizeWord word) maxD).visited := hbis.2
      have heq : computeGraphSize data word maxD
          = (getWordGraphSrv data word maxD).1.length := by
        rw [computeGraphSize_some data word maxD e he, getWordGraphSrv_some data word maxD e he,
          hv, hinv.visList, List.length_map]
      refine ⟨heq, ?_, ?_⟩
      · intro h0
        have hroot : normalizeWord word ∈ (bfsLam data (normalizeWord word) maxD).visited := by
          rcases hinv.rootq with h | h
          · exact h
          · rw [hqe] at h
            exact absurd h (List.not_mem_nil _)
        rw [computeGraphSize_some data word maxD e he, hv] at h0
        rw [List.length_eq_zero.mp h0] at hroot
        exact absurd hroot (List.not_mem_nil _)
      · intro hn
        exact Option.noConfusion hn

/-- C1: for a root present in the index, both BFS variants (visited marked
at enqueue time in `MemStorage.getWordGraph`, visited marked at dequeue
time in the lambda/server `getWordGraph`) emit each reachable word exactly
once, at a depth equal to its minimum hop count from the root. -/
theorem C1_bfs_min_depth (data : EtymologyData) (nroot : String) (maxD : Nat)
    (e : WordEntry) (he : lookupStr data nroot = some e) :
    (((bfsMem data nroot maxD).nodes.map GraphNode.id).Nodup
      ∧ (∀ n ∈ (bfsMem data nroot maxD).nodes, minDepthIs data nroot n.id n.depth)
      ∧ (∀ x, x ∈ (bfsMem data nroot maxD).nodes.map GraphNode.id
            ↔ x ∈ reachList data nroot maxD))
    ∧ (((bfsLam data nroot maxD).nodes.map GraphNode.id).Nodup
      ∧ (∀ n ∈ (bfsLam data nroot maxD).nodes, minDepthIs data nroot n.id n.depth)
      ∧ (∀ x, x ∈ (bfsLam data nroot maxD).nodes.map GraphNode.id
            ↔ x ∈ reachList data nroot maxD)) := by
  obtain ⟨hA, hAq⟩ := bfsMem_final data nroot maxD e he
  obtain ⟨hB, hBq⟩ := bfsLam_final data nroot maxD e he
  refine ⟨⟨hA.nodesNodup, fun n hn => (hA.ndepth n hn).1, fun x => ⟨?_, ?_⟩⟩,
          ⟨hB.idsNodup, fun n hn => (hB.ndepth n hn).1, fun x => ⟨?_, ?_⟩⟩⟩
  · intro hx
    obtain ⟨n, hn, hnid⟩ := List.mem_map.mp hx
    have h := hA.ndepth n hn
    rw [← hnid]
    exact reach_mono data nroot h.2 h.1.1
  · intro hx
    exact bfsMem_complete data nroot maxD _ hA hAq maxD (le_refl _) x hx
  · intro hx
    obtain ⟨n, hn, hnid⟩ := List.mem_map.mp hx
    have h := hB.ndepth n hn
    rw [← hnid]
    exact reach_mono data nroot h.2 h.1.1
  · intro hx
    exact bfsLam_complete data nroot maxD _ hB hBq maxD (le_refl _) x hx

/-- A two-word index used as a concrete input for several witnesses. -/
def dataW1 : EtymologyData := [("a", ⟨"A", ["b"]⟩), ("b", ⟨"B", []⟩)]

/-- Witness for C1 on a concrete two-word index at depth 2. -/
theorem C1_bfs_min_depth_witness :
    lookupStr dataW1 "a" = some ⟨"A", ["b"]⟩
    ∧ ((bfsMem dataW1 "a" 2).nodes.map GraphNode.id).Nodup
    ∧ (∀ x, x ∈ (bfsLam dataW1 "a" 2).nodes.map GraphNode.id
          ↔ x ∈ reachList dataW1 "a" 2) := by
  have h := C1_bfs_min_depth dataW1 "a" 2 ⟨"A", ["b"]⟩ rfl
  exact ⟨rfl, h.1.1, h.2.2.2⟩

/-- C3: `MemStorage.getWordGraph` returns empty nodes and edges exactly
when the normalized word is absent from the index; when it is present the
output contains the root node at depth 0 (the root survives hub pruning
because its recorded depth is 0). -/
theorem C3_empty_iff_absent (data : EtymologyData) (word : String) (maxD : Nat) :
    ((getWordGraphMem data word maxD).1 = [] ∧ (getWordGraphMem data word maxD).2 = []
        ↔ lookupStr data (normalizeWord word) = none)
    ∧ (∀ e, lookupStr data (normalizeWord word) = some e →
        ∃ n ∈ (getWordGraphMem data word maxD).1,
          n.id = normalizeWord word ∧ n.depth = 0) := by
  cases he : lookupStr data (normalizeWord word) with
  | none =>
      rw [getWordGraphMem_none data word maxD he]
      exact ⟨⟨fun _ => rfl, fun _ => ⟨rfl, rfl⟩⟩, fun e2 he2 => Option.noConfusion he2⟩
  | some e =>
      obtain ⟨hinv, hq⟩ := bfsMem_final data (normalizeWord word) maxD e he
      have hrootn : normalizeWord word
          ∈ (bfsMem data (normalizeWord word) maxD).nodes.map GraphNode.id := by
        rcases (hinv.visEq (normalizeWord word)).mp hinv.rootVis with h | h
        · exact h
        · rw [hq] at h
          exact absurd h (List.not_mem_nil _)
      obtain ⟨n, hn, hnid⟩ := List.mem_map.mp hrootn
      have hmin : minDepthIs data (normalizeWord word) n.id n.depth :=
        (hinv.ndepth n hn).1
      have hdep0 : n.depth = 0 :=
        minDepth_unique data (normalizeWord word) (hnid ▸ hmin)
          (minDepth_root data (normalizeWord word))
      have hkeep : n.id ∉ removedFinal (bfsMem data (normalizeWord word) maxD).edges
          (bfsMem data (normalizeWord word) maxD).dmap := by
        intro hmem
        have h1 := removedFinal_depth_pos (bfsMem data (normalizeWord word) maxD).edges
          (bfsMem data (normalizeWord word) maxD).dmap n.id hmem
        rw [hnid] at h1
        rw [dmGet, hinv.dmRoot] at h1
        exact absurd h1 (by simp)
      have hmemP : n ∈ (getWordGraphMem data word maxD).1 := by
        rw [getWordGraphMem_some data word maxD e he]
        refine List.mem_filter.mpr ⟨hn, ?_⟩
        simpa using hkeep
      refine ⟨⟨?_, ?_⟩, ?_⟩
      · intro habs
        rw [habs.1] at hmemP
        exact absurd hmemP (List.not_mem_nil _)
      · intro habs
        exact Option.noConfusion habs
      · intro e2 he2
        exact ⟨n, hmemP, hnid, hdep0⟩

/-- Witness for C3: the root node appears at depth 0 in the output of a
concrete two-word index. -/
theorem C3_empty_iff_absent_witness :
    ∃ n ∈ (getWordGraphMem dataW1 "a" 2).1, n.id = normalizeWord "a" ∧ n.depth = 0 :=
  (C3_empty_iff_absent dataW1 "a" 2).2 ⟨"A", ["b"]⟩ rfl

/-- C4 fails for the lambda `getWordGraph`: two related words of the same
entry that normalize to the same key produce two copies of the same edge,
and hub pruning does not deduplicate them. -/
def dataC4 : EtymologyData := [("a", ⟨"A", ["b", "B"]⟩), ("b", ⟨"B", []⟩)]

/-- C4 counterexample: the lambda `getWordGraph` emits two edges for the
same unordered pair when a relatedWords list contains two spellings of the
same normalized word. -/
theorem C4_counterexample_duplicate_edges :
    (getWordGraphLam dataC4 "a" 1).2 = [⟨"a", "b"⟩, ⟨"a", "b"⟩]
    ∧ ¬ List.Pairwise (fun a b => ¬ unordEq a b) (getWordGraphLam dataC4 "a" 1).2 := by
  constructor
  · decide
  · decide

/-- C4 amended: `MemStorage.getWordGraph` (the variant with the
`edges.some` duplicate test) never returns two edges for the same
unordered pair of node ids. -/
theorem C4_amended_unordered_pair_unique (data : EtymologyData) (word : String)
    (maxD : Nat) :
    List.Pairwise (fun a b => ¬ unordEq a b) (getWordGraphMem data word maxD).2 := by
  cases he : lookupStr data (normalizeWord word) with
  | none =>
      rw [getWordGraphMem_none data word maxD he]
      exact List.Pairwise.nil
  | some e =>
      obtain ⟨hinv, hq⟩ := bfsMem_final data (normalizeWord word) maxD e he
      rw [getWordGraphMem_some data word maxD e he]
      exact hinv.epair.sublist (List.filter_sublist _)

/-- The index of the C9 counterexample: a chain `a → b → c`. -/
def dataC9 : EtymologyData := [("a", ⟨"", ["b"]⟩), ("b", ⟨"", ["c"]⟩), ("c", ⟨"", []⟩)]

/-- C9 counterexample: at the depth limit, `MemStorage.getWordGraph` emits
an edge whose `to` endpoint is not among the returned node ids (the word
`c` lies one hop beyond the bound and is never emitted as a node). -/
theorem C9_counterexample_dangling_to :
    (⟨"b", "c"⟩ : GraphEdge) ∈ (getWordGraphMem dataC9 "a" 1).2
    ∧ "c" ∉ (getWordGraphMem dataC9 "a" 1).1.map GraphNode.id := by
  constructor
  · decide
  · decide

/-- C9 amended: in every `MemStorage.getWordGraph` result, the `from`
endpoint of every edge is the id of a returned node, and the `to` endpoint
is always a key of the index (though possibly not a returned node when it
lies beyond the depth limit). -/
theorem C9_amended_edge_endpoints (data : EtymologyData) (word : String) (maxD : Nat) :
    ∀ e2 ∈ (getWordGraphMem data word maxD).2,
      e2.efrom ∈ (getWordGraphMem data word maxD).1.map GraphNode.id
      ∧ (lookupStr data e2.eto).isSome := by
  cases he : lookupStr data (normalizeWord word) with
  | none =>
      rw [getWordGraphMem_none data word maxD he]
      intro e2 he2
      exact absurd he2 (List.not_mem_nil _)
  | some e =>
      obtain ⟨hinv, hq⟩ := bfsMem_final data (normalizeWord word) maxD e he
      rw [getWordGraphMem_some data word maxD e he]
      intro e2 he2
      have hmem := List.mem_filter.mp he2
      have hkeep : e2.efrom ∉ removedFinal (bfsMem data (normalizeWord word) maxD).edges
          (bfsMem data (normalizeWord word) maxD).dmap := by
        have h2 := hmem.2
        simp only [decide_eq_true_eq] at h2
        exact h2.1
      obtain ⟨hfrom, hto⟩ := hinv.eends e2 hmem.1
      obtain ⟨n, hn, hnid⟩ := List.mem_map.mp hfrom
      refine ⟨?_, hto⟩
      apply List.mem_map.mpr
      refine ⟨n, ?_, hnid⟩
      refine List.mem_filter.mpr ⟨hn, ?_⟩
      simp only [decide_eq_true_eq]
      rw [hnid]
      exact hkeep

/-- A two-word index whose graph output retains one edge. -/
def dataW9 : EtymologyData := [("a", ⟨"", ["b"]⟩), ("b", ⟨"", []⟩)]

/-- Witness for C9's amended claim on a concrete one-edge output. -/
theorem C9_amended_edge_endpoints_witness :
    (⟨"a", "b"⟩ : GraphEdge) ∈ (getWordGraphMem dataW9 "a" 1).2
    ∧ "a" ∈ (getWordGraphMem dataW9 "a" 1).1.map GraphNode.id
    ∧ (lookupStr dataW9 "b").isSome := by
  refine ⟨by decide, ?_, ?_⟩
  · exact (C9_amended_edge_endpoints dataW9 "a" 1 ⟨"a", "b"⟩ (by decide)).1
  · exact (C9_amended_edge_endpoints dataW9 "a" 1 ⟨"a", "b"⟩ (by decide)).2
